import Mathlib

/-
  Verification of the kiali-mcp RAG engine (Go package `rag`) against its
  natural-language specification.

  Modelling conventions (shallow embedding):
  * Go strings are modelled as lists of characters (`GoStr`).
  * Go `float64` values are idealised as real numbers (`ℝ`); the `float32`
    vectors stored as sqlite blobs are modelled as the decoded `List ℝ`
    directly (`floatsToBlob`/`blobToFloats` are mutually inverse on
    well-formed blobs, so the blob codec is elided).
  * Database tables are modelled as in-memory lists kept in insertion
    order; `id INTEGER PRIMARY KEY AUTOINCREMENT` is a `ℕ` counter.
  * Network effects (embedding provider, completion provider, HTTP page
    fetching) are modelled as oracle functions passed as parameters, and
    calls to them are recorded in the result so that claims about "no
    network call happens" become statements about the recorded log.
-/

/-- Go strings, modelled as lists of characters. -/
abbrev GoStr := List Char

/-- Whitespace predicate used by `strings.Fields` / `strings.TrimSpace`
(`unicode.IsSpace`).  We model the ASCII whitespace characters
(space, tab, newline, vertical tab, form feed, carriage return); the Go
original additionally accepts some exotic Unicode space code points,
which none of the claims exercise. -/
def isSpace (c : Char) : Bool :=
  c = ' ' || c = '\t' || c = '\n' || c = Char.ofNat 11 || c = Char.ofNat 12 || c = '\r'

/-- Model of `strings.Contains s pat`: `pat` occurs as a contiguous
substring of `s`. -/
def containsSub (pat : GoStr) : GoStr → Bool
  | [] => pat.isEmpty
  | c :: cs => pat.isPrefixOf (c :: cs) || containsSub pat cs

/-- Model of `strings.TrimSpace`: drop whitespace from both ends. -/
def trimSpace (s : GoStr) : GoStr :=
  ((s.dropWhile isSpace).reverse.dropWhile isSpace).reverse

/-- Model of `strings.Fields`: split around runs of whitespace, returning
the (nonempty) maximal whitespace-free words in order. -/
def fields : GoStr → List GoStr
  | [] => []
  | c :: cs =>
    if isSpace c then fields cs
    else ((c :: cs).takeWhile fun x => !isSpace x)
           :: fields ((c :: cs).dropWhile fun x => !isSpace x)
termination_by s => s.length
decreasing_by
  · simp
  · rename_i hc
    have h := List.dropWhile_suffix (l := cs) (p := fun x => !isSpace x)
    simp only [List.dropWhile_cons, hc]
    simp only [Bool.not_false, if_true]
    simpa [Nat.lt_succ_iff] using h.length_le

/-- Model of `strings.Join(ws, " ")`: concatenate the words separated by
single spaces. -/
def joinSp : List GoStr → GoStr
  | [] => []
  | [w] => w
  | w :: ws => w ++ ' ' :: joinSp ws

/-- The chunking loop of `splitIntoChunks` (source lines 1045-1056), on the
word list: repeatedly emit `w` words joined by single spaces until the words
are exhausted.  The Go loop `for i := 0; i < len(words); i += wordsPerChunk`
does not terminate when `wordsPerChunk = 0` and `words` is nonempty; the
model returns `[]` in that (never reached: the only call site passes 800)
case so that the definition is total. -/
def chunkLoop (w : ℕ) (ws : List GoStr) : List GoStr :=
  if ws.isEmpty || w == 0 then []
  else joinSp (ws.take w) :: chunkLoop w (ws.drop w)
termination_by ws.length
decreasing_by
  rename_i h
  simp only [Bool.or_eq_true, beq_iff_eq, List.isEmpty_iff, not_or] at h
  have hw : 0 < w := Nat.pos_of_ne_zero h.2
  have hl : 0 < ws.length := List.length_pos.mpr h.1
  simp [List.length_drop]
  omega

/-- Model of `splitIntoChunks(text, wordsPerChunk)` (source lines
1045-1056): split `text` into whitespace-delimited words and group them
into consecutive windows of `wordsPerChunk` words, each window joined by
single spaces. -/
def splitIntoChunks (text : GoStr) (wordsPerChunk : ℕ) : List GoStr :=
  chunkLoop wordsPerChunk (fields text)

/-- Specification-side window partition: the word list cut into
consecutive blocks of `w` words (the last block may be shorter).
Written from the spec's words ("groups them into consecutive windows of
exactly `maxWordsPerChunk` words (final window may be shorter)") for
comparison with `chunkLoop`. -/
def windows (w : ℕ) (ws : List GoStr) : List (List GoStr) :=
  if ws.isEmpty || w == 0 then []
  else ws.take w :: windows w (ws.drop w)
termination_by ws.length
decreasing_by
  rename_i h
  simp only [Bool.or_eq_true, beq_iff_eq, List.isEmpty_iff, not_or] at h
  have hw : 0 < w := Nat.pos_of_ne_zero h.2
  have hl : 0 < ws.length := List.length_pos.mpr h.1
  simp [List.length_drop]
  omega

/-- Model of `cosine(a, b)` (source lines 1089-1102).  The Go loop runs
over the indices of `a`, reading `b` at the same index (it would panic if
`b` were shorter; the claims only concern equal-length vectors, for which
iterating over `a.zip b` is the same computation).  `float64` arithmetic
is idealised as exact real arithmetic. -/
noncomputable def cosine (a b : List ℝ) : ℝ :=
  if (((a.zip b).map fun p => p.1 * p.1).sum = 0) ∨
     (((a.zip b).map fun p => p.2 * p.2).sum = 0) then 0
  else (((a.zip b).map fun p => p.1 * p.2).sum) /
       (Real.sqrt (((a.zip b).map fun p => p.1 * p.1).sum) *
        Real.sqrt (((a.zip b).map fun p => p.2 * p.2).sum))

/-- Specification-side Euclidean norm `||a||`. -/
noncomputable def vecNorm (a : List ℝ) : ℝ :=
  Real.sqrt ((a.map fun x => x * x).sum)

/-- Specification-side dot product of equal-length vectors. -/
noncomputable def dotProd (a b : List ℝ) : ℝ :=
  ((a.zip b).map fun p => p.1 * p.2).sum

/-- Decimal digit character for a value `d < 10`. -/
def digitChar (d : ℕ) : Char := Char.ofNat (48 + d)

/-- Decimal rendering of a natural number (most significant digit first),
as produced by `fmt` verbs for the integer part of a number. -/
def fmtNat (n : ℕ) : GoStr :=
  if n < 10 then [digitChar n]
  else fmtNat (n / 10) ++ [digitChar (n % 10)]
termination_by n
decreasing_by
  rename_i h
  have : 10 ≤ n := Nat.le_of_not_lt h
  exact Nat.div_lt_self (by omega) (by omega)

/-- Exactly three decimal digits with leading zeros, for a value
`f < 1000`: the fractional part printed by the `%.3f` verb. -/
def pad3 (f : ℕ) : GoStr :=
  [digitChar (f / 100), digitChar (f / 10 % 10), digitChar (f % 10)]

/-- Rendering of `%.3f` given the number of (signed) thousandths: sign,
integer part, a dot, and the three-digit fractional part. -/
def fmtMilli (n : ℤ) : GoStr :=
  if n < 0 then '-' :: fmtNat (n.natAbs / 1000) ++ '.' :: pad3 (n.natAbs % 1000)
  else fmtNat (n.toNat / 1000) ++ '.' :: pad3 (n.toNat % 1000)

/-- The number of thousandths printed by `fmt.Sprintf("%.3f", x)`: the
value rounded to the nearest thousandth.  (Go rounds exact ties of the
binary value to even; ties are not exercised by any claim, and the model
rounds them up.) -/
noncomputable def round3 (x : ℝ) : ℤ := ⌊x * 1000 + 1 / 2⌋

/-- The string `fmt.Sprintf("%.3f", x)` under the idealisation above. -/
noncomputable def fmt3 (x : ℝ) : GoStr := fmtMilli (round3 x)

/-- The suffix appended to a chunk snippet by the sqlite `search`:
`" (sim=%.3f)"` formatted with the similarity `x`. -/
noncomputable def simSuffix (x : ℝ) : GoStr :=
  (" (sim=").toList ++ fmt3 x ++ [')']

/-- Value of a string of decimal digit characters. -/
def natOfDigits (ds : GoStr) : ℕ :=
  ds.foldl (fun a c => 10 * a + (c.toNat - 48)) 0

/-- Parse the leading decimal number of a string, as `fmt.Sscanf` with
verb `%f` does on the strings this program produces: an optional minus
sign, integer digits, and an optional fractional part; parsing stops at
the first character that cannot extend the number (`Sscanf`'s scientific
notation and sign-only corner cases are never produced here).  A string
that starts with no digits parses as `0`, matching `Sscanf` leaving the
output variable at its zero value. -/
def parseUnsigned (cs : GoStr) : ℚ :=
  let ip := cs.takeWhile Char.isDigit
  let rest := cs.dropWhile Char.isDigit
  if rest.head? = some '.' then
    let fp := (rest.drop 1).takeWhile Char.isDigit
    (natOfDigits ip : ℚ) + (natOfDigits fp : ℚ) / 10 ^ fp.length
  else (natOfDigits ip : ℚ)

/-- Signed variant of `parseUnsigned`. -/
def parseFloatPrefix (cs : GoStr) : ℚ :=
  if cs.head? = some '-' then - parseUnsigned (cs.drop 1) else parseUnsigned cs

/-- Model of `strings.LastIndex(s, pat)`: the largest index at which
`pat` occurs in `s`, if any. -/
def lastIndexSub (s pat : GoStr) : Option ℕ :=
  (((List.range (s.length + 1)).filter fun i => pat.isPrefixOf (s.drop i))).getLast?

/-- Model of `extractScore(snippet)` (source lines 1122-1130): find the
last occurrence of `"(sim="` and parse the following number; `-1` when
the marker is absent.  The parsed `float64` is modelled as the exact
rational value of the decimal literal (all comparisons the program makes
between such values have the same outcome on the rationals as on their
`float64` roundings: distinct 3-decimal literals are farther apart than
one ulp). -/
def extractScore (snippet : GoStr) : ℚ :=
  match lastIndexSub snippet (("(sim=").toList) with
  | none => -1
  | some idx => parseFloatPrefix (snippet.drop (idx + 5))

/-- Model of the `docChunk` record (source lines 484-491).  The sqlite
`search` never fills `Content`, so the field is omitted; the `Vector`
field holds the blob-decoded chunk vector. -/
structure docChunk where
  id : ℕ
  title : GoStr
  url : GoStr
  snippet : GoStr
  vector : List ℝ

/-- A placeholder chunk (the `items[best]` read in `topK` is always in
bounds; the default is only needed to make list indexing total). -/
def dummyChunk : docChunk := ⟨0, [], [], [], []⟩

/-- The ranking key of `topK`: the score re-parsed from the snippet. -/
def chunkScore (c : docChunk) : ℚ := extractScore c.snippet

/-- The inner scan of `topK` (source lines 1107-1115): running over the
remaining items with the index `j` of the element under inspection, the
index `best` of the best element seen so far and its score `bs`, return
the index of the first element attaining the maximal score. -/
def bestIdxAux : List docChunk → ℕ → ℕ → ℚ → ℕ
  | [], _, best, _ => best
  | y :: ys, j, best, bs =>
    if chunkScore y > bs then bestIdxAux ys (j + 1) j (chunkScore y)
    else bestIdxAux ys (j + 1) best bs

/-- Index selected by one round of `topK`'s selection scan. -/
def bestIdx : List docChunk → ℕ
  | [] => 0
  | x :: xs => bestIdxAux xs 1 0 (chunkScore x)

/-- Model of `topK(items, k)` (source lines 1104-1120): repeatedly move
the first maximal-score element (score parsed from the snippet via
`extractScore`) of the remaining items to the output, `k` times or until
the items run out. -/
def topK (items : List docChunk) (k : ℕ) : List docChunk :=
  match k, items with
  | 0, _ => []
  | _ + 1, [] => []
  | k + 1, x :: xs =>
    let b := bestIdx (x :: xs)
    (x :: xs).getD b dummyChunk :: topK ((x :: xs).eraseIdx b) k
termination_by items.length
decreasing_by
  have key : ∀ (ys : List docChunk) (j best : ℕ) (bs : ℚ) (n : ℕ),
      best < n → j + ys.length ≤ n → bestIdxAux ys j best bs < n := by
    intro ys
    induction ys with
    | nil => intro j best bs n hb _; simpa [bestIdxAux] using hb
    | cons y ys ih =>
      intro j best bs n hb hj
      simp only [List.length_cons] at hj
      simp only [bestIdxAux]
      split
      · exact ih (j + 1) j _ n (by omega) (by omega)
      · exact ih (j + 1) best bs n hb (by omega)
  have hb : bestIdx (x :: xs) < (x :: xs).length := by
    simp only [bestIdx, List.length_cons]
    exact key xs 1 0 _ (xs.length + 1) (by omega) (by omega)
  simp only [List.length_eraseIdx, if_pos hb]
  simp only [List.length_cons] at hb ⊢
  omega

/-- Running maximum of the scores of a list of chunks, seeded with `bs`
(the score of the element the selection scan starts from). -/
def maxScoreFrom (bs : ℚ) (l : List docChunk) : ℚ :=
  l.foldl (fun m y => max m (chunkScore y)) bs

/-- Specification-side stable insertion (descending by `chunkScore`): the
new element is placed before every element whose score does not exceed
its own, so that among equal scores earlier input stays earlier. -/
def insertDesc (x : docChunk) : List docChunk → List docChunk
  | [] => [x]
  | y :: ys => if chunkScore x < chunkScore y then y :: insertDesc x ys
               else x :: y :: ys

/-- Specification-side stable descending sort by `chunkScore`. -/
def sortDesc : List docChunk → List docChunk
  | [] => []
  | x :: xs => insertDesc x (sortDesc xs)

/-- A row of the sqlite join
`SELECT d.id, d.title, d.url, e.snippet, e.vector FROM embeddings e JOIN
documents d ON d.id = e.document_id`, with the vector blob already
decoded.  The list order of the rows models the scan (encounter) order. -/
structure JoinRow where
  id : ℕ
  title : GoStr
  url : GoStr
  snippet : GoStr
  vector : List ℝ

/-- The `docChunk` built for one scanned row (source line 611): the
snippet is the stored snippet with the formatted similarity appended. -/
noncomputable def mkChunk (queryVec : List ℝ) (r : JoinRow) : docChunk :=
  ⟨r.id, r.title, r.url, r.snippet ++ simSuffix (cosine r.vector queryVec), r.vector⟩

/-- Model of the sqlite branch of `search(queryVec, k)` (source lines
595-617): score every stored row, and reduce with `topK` only when more
than `k` rows were scanned. -/
noncomputable def search (rows : List JoinRow) (queryVec : List ℝ) (k : ℕ) : List docChunk :=
  let results := rows.map (mkChunk queryVec)
  if results.length > k then topK results k else results

/-- A row of the `documents` table (sqlite schema, source lines 495-500). -/
structure Document where
  id : ℕ
  title : GoStr
  url : GoStr
  content : GoStr

/-- A row of the `embeddings` table (source lines 501-507), with the
vector blob already decoded. -/
structure EmbRow where
  docId : ℕ
  position : ℕ
  vector : List ℝ
  snippet : GoStr

/-- The sqlite store: both tables in insertion order plus the
auto-increment counter for `documents.id`. -/
structure Store where
  documents : List Document
  embeddings : List EmbRow
  nextId : ℕ

/-- The empty store produced by `initSqlite`. -/
def emptyStore : Store := ⟨[], [], 1⟩

/-- Model of `documentExists(url)` (source lines 445-453):
`SELECT COUNT(1) FROM documents WHERE url=?` is positive iff some row
has the URL. -/
def documentExists (st : Store) (url : GoStr) : Bool :=
  st.documents.any fun d => d.url == url

/-- Model of the sqlite branch of `upsertDocument` (source lines
537-574): insert the document row, then chunk the content with window
800 and insert one embedding row per chunk, with the vector obtained
from the embedding oracle and the snippet the 160-character prefix of
the chunk.  Returns the new store and the number of embedding calls
made (one per chunk).  The source aborts on an embedding error leaving
a partial insert; no claim exercises that path, so the oracle is total. -/
def upsertDocument (embedO : GoStr → List ℝ) (st : Store)
    (title url content : GoStr) : Store × ℕ :=
  let chunks := splitIntoChunks content 800
  let id := st.nextId
  ⟨⟨st.documents ++ [⟨id, title, url, content⟩],
    st.embeddings ++ chunks.enum.map (fun p => ⟨id, p.1, embedO p.2, p.2.take 160⟩),
    st.nextId + 1⟩,
   chunks.length⟩

/-- Running counters of one ingestion request plus the store and the
total number of embedding calls issued so far. -/
structure IngestAcc where
  store : Store
  ingested : ℕ
  skipped : ℕ
  embeds : ℕ

/-- One extracted page section (source type `extractedSection`). -/
structure extractedSection where
  title : GoStr
  url : GoStr
  content : GoStr

/-- Model of the per-section body of the crawl loop (source lines
172-187): discard sections whose trimmed content is shorter than 10
characters; skip (counting `skipped`) sections whose URL already has a
document; otherwise upsert and count `ingested`.  An upsert error in the
source also skips the `ingested++`; the modelled store cannot fail. -/
def processSection (embedO : GoStr → List ℝ) (acc : IngestAcc)
    (sec : extractedSection) : IngestAcc :=
  if (trimSpace sec.content).length < 10 then acc
  else if documentExists acc.store sec.url then
    { acc with skipped := acc.skipped + 1 }
  else
    let r := upsertDocument embedO acc.store sec.title sec.url sec.content
    { acc with store := r.1, ingested := acc.ingested + 1, embeds := acc.embeds + r.2 }

/-- Model of the per-URL body of the `IngestYouTube` ingestion loop
(source lines 237-250): skip (counting `skipped`) URLs that already have
a document; fetch the raw page, treating a fetch error or a body shorter
than 200 characters as a silent skip; otherwise upsert with title
"YouTube Video" and count `ingested`. -/
def ytIngestStep (fetchRawO : GoStr → Option GoStr) (embedO : GoStr → List ℝ)
    (acc : IngestAcc) (u : GoStr) : IngestAcc :=
  if documentExists acc.store u then { acc with skipped := acc.skipped + 1 }
  else
    match fetchRawO u with
    | none => acc
    | some body =>
      if body.length < 200 then acc
      else
        let r := upsertDocument embedO acc.store (("YouTube Video").toList) u body
        { acc with store := r.1, ingested := acc.ingested + 1, embeds := acc.embeds + r.2 }

/-- Document ids that have a same-URL row with a smaller id — the result
of the duplicate query in `Deduplicate` (source lines 413-430), which is
computed on the table state before any deletion. -/
def dupIDs (st : Store) : List ℕ :=
  (st.documents.filter fun d =>
    st.documents.any fun d2 => d2.url == d.url && decide (d2.id < d.id)).map
    fun d => d.id

/-- Delete all embedding rows of a document id
(`DELETE FROM embeddings WHERE document_id=?`). -/
def deleteEmbFor (st : Store) (i : ℕ) : Store :=
  { st with embeddings := st.embeddings.filter fun e => !(e.docId == i) }

/-- Delete a document row by id (`DELETE FROM documents WHERE id=?`),
returning the affected-row count. -/
def deleteDocRow (st : Store) (i : ℕ) : Store × ℕ :=
  ({ st with documents := st.documents.filter fun d => !(d.id == i) },
   (st.documents.filter fun d => d.id == i).length)

/-- One iteration of the deletion loop of `Deduplicate`: embeddings of
the duplicate first, then its document row, accumulating the affected
document-row count. -/
def dedupStep (acc : Store × ℕ) (i : ℕ) : Store × ℕ :=
  let st1 := deleteEmbFor acc.1 i
  let r := deleteDocRow st1 i
  (r.1, acc.2 + r.2)

/-- Model of the sqlite branch of `Deduplicate` (source lines 377-443):
collect the duplicate ids, then for each delete its chunks and then its
document row, returning the final store and the total number of document
rows removed. -/
def Deduplicate (st : Store) : Store × ℕ :=
  (dupIDs st).foldl dedupStep (st, 0)

/-- Every store state passed through while `Deduplicate` runs: the
initial state and, for every processed duplicate id, the state after its
embeddings are deleted and the state after its document row is deleted. -/
def dedupTrace (st : Store) : List Store :=
  ((dupIDs st).foldl
    (fun (acc : Store × List Store) i =>
      let st1 := deleteEmbFor acc.1 i
      let st2 := (deleteDocRow st1 i).1
      (st2, acc.2 ++ [st1, st2]))
    (st, [st])).2

/-- Referential consistency: every embedding row references an existing
document row. -/
def consistent (st : Store) : Prop :=
  ∀ e ∈ st.embeddings, ∃ d ∈ st.documents, d.id = e.docId

/-- Components of a parsed URL.  Models `net/url.Parse` for the absolute
and path-only URL shapes this crawler handles (scheme `"://"` host,
optional path, query after `?` and fragment after `#` stripped from the
path; userinfo/port subtleties are not exercised by the claims). -/
structure URLParts where
  scheme : GoStr
  host : GoStr
  path : GoStr

/-- Split a string around the first occurrence of a pattern. -/
def splitOnFirst (pat : GoStr) : GoStr → Option (GoStr × GoStr)
  | [] => if pat.isEmpty then some ([], []) else none
  | c :: cs =>
    if pat.isPrefixOf (c :: cs) then some ([], (c :: cs).drop pat.length)
    else match splitOnFirst pat cs with
         | some (l, r) => some (c :: l, r)
         | none => none

/-- Model of `url.Parse` (see `URLParts`). -/
def parseURL (s : GoStr) : URLParts :=
  match splitOnFirst (("://").toList) s with
  | some (sch, rest) =>
    let host := rest.takeWhile fun c => !(c == '/' || c == '?' || c == '#')
    let tail := rest.drop host.length
    ⟨sch, host, tail.takeWhile fun c => !(c == '?' || c == '#')⟩
  | none => ⟨[], [], s.takeWhile fun c => !(c == '?' || c == '#')⟩

/-- Reconstruction of the URL string (`(*url.URL).String()`) for the
shapes `parseURL` produces. -/
def urlString (u : URLParts) : GoStr :=
  if u.host.isEmpty then u.path
  else u.scheme ++ ("://").toList ++ u.host ++ u.path

/-- Model of `shouldCrawl(u)` (source lines 1004-1029): the host must
contain "kiali.io", the path must contain "/docs/", and asset-extension
and taxonomy paths are excluded (checks on the lower-cased path). -/
def shouldCrawl (u : GoStr) : Bool :=
  let p := parseURL u
  if p.host.isEmpty then false
  else if !containsSub (("kiali.io").toList) p.host then false
  else if !containsSub (("/docs/").toList) p.path then false
  else
    let lower := p.path.map Char.toLower
    if ((".png").toList).isSuffixOf lower || ((".jpg").toList).isSuffixOf lower ||
       ((".jpeg").toList).isSuffixOf lower || ((".gif").toList).isSuffixOf lower ||
       ((".svg").toList).isSuffixOf lower || ((".ico").toList).isSuffixOf lower ||
       ((".pdf").toList).isSuffixOf lower || ((".zip").toList).isSuffixOf lower then false
    else if containsSub (("/tag/").toList) lower ||
            containsSub (("/category/").toList) lower then false
    else true

/-- The part of a fetched page the crawl loop consumes: the sections
returned by `extractKialiSections` and the candidate links returned by
`collectKialiLinks` (already resolved against the page URL). -/
structure Page where
  sections : List extractedSection
  links : List GoStr

/-- A site: the finite map from URL to page honoured by `fetchDoc`; a
URL outside the map is a fetch error (non-200 or transport failure). -/
abbrev Site := List (GoStr × Page)

/-- Look up a URL in the site (the modelled `fetchDoc`). -/
def fetchSite (site : Site) (u : GoStr) : Option Page :=
  match site with
  | [] => none
  | (v, p) :: rest => if u == v then some p else fetchSite rest u

/-- All links mentioned by any page of the site. -/
def allLinks (site : Site) : List GoStr :=
  (site.map fun e => e.2.links).flatten

/-- State of the crawl loop of `IngestKialiDocs`: the visited set, the
frontier queue, the ingestion counters/store, and (instrumentation) the
list of URLs for which a fetch was issued, in order. -/
structure CrawlState where
  visited : List GoStr
  queue : List GoStr
  acc : IngestAcc
  fetched : List GoStr

/-- Model of the crawl loop of `IngestKialiDocs` (source lines 156-194),
with an explicit fuel so that the (in general unbounded) loop is total;
`none` means the fuel ran out before the frontier emptied.  Each
iteration dequeues one URL; already-visited URLs are dropped; a URL not
containing "kiali.io" (a check on the whole URL string, line 163) is
skipped without fetching; otherwise a fetch is issued (recorded in
`fetched`), a failed fetch skips the URL, and a fetched page has its
sections processed and its links enqueued when they contain "kiali.io",
are unvisited and pass `shouldCrawl` (lines 189-193). -/
def crawlFuel (site : Site) (embedO : GoStr → List ℝ) :
    ℕ → CrawlState → Option CrawlState
  | 0, _ => none
  | n + 1, st =>
    match st.queue with
    | [] => some st
    | curr :: rest =>
      if curr ∈ st.visited then crawlFuel site embedO n { st with queue := rest }
      else
        let stv : CrawlState := { st with visited := curr :: st.visited, queue := rest }
        if !containsSub (("kiali.io").toList) curr then crawlFuel site embedO n stv
        else
          let stf : CrawlState := { stv with fetched := stv.fetched ++ [curr] }
          match fetchSite site curr with
          | none => crawlFuel site embedO n stf
          | some page =>
            let acc2 := page.sections.foldl (processSection embedO) stf.acc
            let newLinks := page.links.filter fun link =>
              containsSub (("kiali.io").toList) link &&
                !(decide (link ∈ stv.visited)) && shouldCrawl link
            crawlFuel site embedO n { stf with acc := acc2, queue := rest ++ newLinks }

/-- The seed URL computed by `IngestKialiDocs` (source lines 142-154):
the base URL with scheme defaulted to "https" and host defaulted to
"kiali.io". -/
def seedOf (base : GoStr) : GoStr :=
  let u := parseURL base
  let u1 := if u.scheme.isEmpty then { u with scheme := ("https").toList } else u
  let u2 := if u1.host.isEmpty then { u1 with host := ("kiali.io").toList } else u1
  urlString u2

/-- Model of `IngestKialiDocs(base)` (source lines 141-196): crawl from
the seed with empty visited set and fresh counters. -/
def IngestKialiDocs (site : Site) (embedO : GoStr → List ℝ) (base : GoStr)
    (fuel : ℕ) : Option CrawlState :=
  crawlFuel site embedO fuel ⟨[], [seedOf base], ⟨emptyStore, 0, 0, 0⟩, []⟩

/-- Termination measure for the crawl loop relative to a universe `U` of
URLs that the queue provably stays inside: the number of distinct
not-yet-visited universe members (weighted so that one visit pays for
any links it may enqueue) plus the queue length. -/
def crawlMeasure (U : List GoStr) (st : CrawlState) : ℕ :=
  (U.dedup.filter fun x => !(decide (x ∈ st.visited))).length * (U.length + 2)
    + st.queue.length

/-- A citation returned by `Answer` (source type `Citation`). -/
structure Citation where
  title : GoStr
  url : GoStr
  span : GoStr

/-- The network/storage calls `Answer` can make, in issue order. -/
inductive AEvent where
  | embedCall (text : GoStr)
  | searchCall
  | completeCall

/-- Result of `Answer`: either an error or the generated text with its
citations, together with the log of calls issued. -/
structure AnswerRes where
  result : Except GoStr (GoStr × List Citation)
  events : List AEvent

/-- Model of `buildPrompt` (source lines 835-850) without the optional
Kiali-context JSON (no claim depends on it). -/
def buildPrompt (query : GoStr) (docs : List docChunk) : GoStr :=
  ("User question:\n").toList ++ query ++
  ("\n\nRelevant context (from Kiali docs and demos):\n").toList ++
  (docs.enum.map fun p =>
    ('[' :: fmtNat (p.1 + 1)) ++ ("] ").toList ++ p.2.title ++ (" - ").toList ++
    p.2.url ++ (": ").toList ++ p.2.snippet ++ [Char.ofNat 10]).flatten ++
  ("\nAnswer step-by-step. Reference sources by URL when relevant.").toList

/-- Model of `Answer(query)` (source lines 116-139): reject blank
queries before any call; embed the query, propagating an embedding
failure without searching; search the store with fixed `k = 8`; complete
the built prompt; and return the answer with one citation per retrieved
chunk whose span is the chunk's (modified) snippet. -/
noncomputable def Answer (embedO : GoStr → Except GoStr (List ℝ))
    (completeO : GoStr → Except GoStr GoStr) (rows : List JoinRow)
    (query : GoStr) : AnswerRes :=
  if (trimSpace query).isEmpty then ⟨.error (("empty query").toList), []⟩
  else
    match embedO query with
    | .error e => ⟨.error e, [.embedCall query]⟩
    | .ok emb =>
      let docs := search rows emb 8
      match completeO (buildPrompt query docs) with
      | .error e => ⟨.error e, [.embedCall query, .searchCall, .completeCall]⟩
      | .ok ans =>
        ⟨.ok (ans, docs.map fun d => ⟨d.title, d.url, d.snippet⟩),
         [.embedCall query, .searchCall, .completeCall]⟩

/-! ### Lemmas about words and chunking -/

/-- Words produced by `fields` are nonempty and whitespace-free. -/
theorem fields_sound : ∀ s : GoStr, ∀ w ∈ fields s, w ≠ [] ∧ ∀ c ∈ w, isSpace c = false := by
  intro s
  induction s using fields.induct with
  | case1 => simp [fields]
  | case2 c cs hc ih =>
    intro w hw
    rw [fields, if_pos hc] at hw
    exact ih w hw
  | case3 c cs hc ih =>
    intro w hw
    rw [fields, if_neg hc] at hw
    rcases List.mem_cons.mp hw with h | h
    · subst h
      constructor
      · simp [List.takeWhile_cons, hc]
      · intro x hx
        have := List.mem_takeWhile_imp hx
        simpa using this
    · exact ih w h

/-- `takeWhile` passes over a prefix on which the predicate holds. -/
theorem takeWhile_append_all {p : Char → Bool} :
    ∀ (w s : GoStr), (∀ x ∈ w, p x = true) → (w ++ s).takeWhile p = w ++ s.takeWhile p := by
  intro w
  induction w with
  | nil => simp
  | cons c cw ih =>
    intro s hall
    have hc : p c = true := hall c (by simp)
    simp only [List.cons_append, List.takeWhile_cons, hc, if_true]
    rw [ih s (fun x hx => hall x (by simp [hx]))]

/-- `dropWhile` passes over a prefix on which the predicate holds. -/
theorem dropWhile_append_all {p : Char → Bool} :
    ∀ (w s : GoStr), (∀ x ∈ w, p x = true) → (w ++ s).dropWhile p = s.dropWhile p := by
  intro w
  induction w with
  | nil => simp
  | cons c cw ih =>
    intro s hall
    have hc : p c = true := hall c (by simp)
    simp only [List.cons_append, List.dropWhile_cons, hc, if_true]
    exact ih s (fun x hx => hall x (by simp [hx]))

/-- `fields` ignores a leading space. -/
theorem fields_space_cons (t : GoStr) : fields (' ' :: t) = fields t := by
  rw [fields]
  simp [isSpace]

/-- `fields` of a nonempty whitespace-free word followed by a rest that
is empty or starts with a space: the word is split off whole. -/
theorem fields_word_append (w s : GoStr) (hw0 : w ≠ [])
    (hw : ∀ c ∈ w, isSpace c = false)
    (hs : s = [] ∨ ∃ t, s = ' ' :: t) : fields (w ++ s) = w :: fields s := by
  obtain ⟨c, cw, rfl⟩ : ∃ c cw, w = c :: cw := by
    cases w with
    | nil => exact absurd rfl hw0
    | cons c cw => exact ⟨c, cw, rfl⟩
  have hall : ∀ x ∈ c :: cw, (fun y => !isSpace y) x = true := by
    intro x hx; simp [hw x hx]
  have hc : isSpace c = false := hw c (by simp)
  have hsw : s.takeWhile (fun y => !isSpace y) = [] ∧
      s.dropWhile (fun y => !isSpace y) = s := by
    rcases hs with rfl | ⟨t, rfl⟩
    · simp
    · constructor
      · simp [List.takeWhile_cons, isSpace]
      · simp [List.dropWhile_cons, isSpace]
  rw [show (c :: cw) ++ s = c :: (cw ++ s) by simp, fields]
  rw [if_neg (by simp [hc])]
  have htake : (c :: (cw ++ s)).takeWhile (fun y => !isSpace y) = c :: cw := by
    rw [show c :: (cw ++ s) = (c :: cw) ++ s by simp]
    rw [takeWhile_append_all _ _ hall, hsw.1, List.append_nil]
  have hdrop : (c :: (cw ++ s)).dropWhile (fun y => !isSpace y) = s := by
    rw [show c :: (cw ++ s) = (c :: cw) ++ s by simp]
    rw [dropWhile_append_all _ _ hall, hsw.2]
  rw [htake, hdrop]

/-- Round trip: `fields` recovers the word list from a single-space join
of nonempty whitespace-free words. -/
theorem fields_joinSp : ∀ ws : List GoStr,
    (∀ w ∈ ws, w ≠ [] ∧ ∀ c ∈ w, isSpace c = false) →
    fields (joinSp ws) = ws := by
  intro ws
  induction ws with
  | nil => intro _; simp [joinSp, fields]
  | cons w rest ih =>
    intro h
    have hw := h w (by simp)
    cases rest with
    | nil =>
      show fields (joinSp [w]) = [w]
      rw [joinSp, show w = w ++ [] by simp]
      rw [fields_word_append w [] (by simpa using hw.1) (by simpa using hw.2) (Or.inl rfl)]
      simp [fields, List.append_nil]
    | cons w2 rest2 =>
      show fields (w ++ ' ' :: joinSp (w2 :: rest2)) = w :: w2 :: rest2
      rw [fields_word_append w (' ' :: joinSp (w2 :: rest2)) hw.1 hw.2
            (Or.inr ⟨_, rfl⟩)]
      rw [fields_space_cons]
      rw [ih (fun x hx => h x (by simp [hx]))]

/-- `fields` of an all-whitespace string is empty. -/
theorem fields_all_space : ∀ s : GoStr, (∀ c ∈ s, isSpace c = true) → fields s = [] := by
  intro s
  induction s with
  | nil => simp [fields]
  | cons c cs ih =>
    intro h
    rw [fields, if_pos (h c (by simp))]
    exact ih (fun x hx => h x (by simp [hx]))

/-- The chunk loop is the spec-side window partition with each window
joined by single spaces. -/
theorem chunkLoop_eq_windows (w : ℕ) : ∀ ws : List GoStr,
    chunkLoop w ws = (windows w ws).map joinSp := by
  intro ws
  induction ws using chunkLoop.induct w with
  | case1 ws h =>
    rw [chunkLoop, if_pos h, windows, if_pos h]
    simp
  | case2 ws h ih =>
    rw [chunkLoop, if_neg h, windows, if_neg h]
    simp only [List.map_cons]
    rw [ih]

/-- The windows concatenate back to the word list. -/
theorem windows_flatten (w : ℕ) (hw : 0 < w) : ∀ ws : List GoStr,
    (windows w ws).flatten = ws := by
  intro ws
  induction ws using windows.induct w with
  | case1 ws h =>
    rw [windows, if_pos h]
    rcases (by simpa using h : ws = [] ∨ w = 0) with rfl | rfl
    · simp
    · omega
  | case2 ws h ih =>
    rw [windows, if_neg h]
    simp only [List.flatten_cons, ih, List.take_append_drop]

/-- Every window is nonempty and no longer than the window size. -/
theorem windows_blocks (w : ℕ) (hw : 0 < w) : ∀ ws : List GoStr,
    ∀ b ∈ windows w ws, b ≠ [] ∧ b.length ≤ w := by
  intro ws
  induction ws using windows.induct w with
  | case1 ws h => rw [windows, if_pos h]; simp
  | case2 ws h ih =>
    rw [windows, if_neg h]
    intro b hb
    rcases List.mem_cons.mp hb with rfl | hb
    · have hne : ws ≠ [] := by
        intro hws; rw [hws] at h; simp at h
      constructor
      · intro htake
        have := List.take_eq_nil_iff.mp htake
        rcases this with h1 | h1
        · omega
        · exact hne h1
      · simp
    · exact ih b hb

/-- Every window but the last has exactly `w` words. -/
theorem windows_full (w : ℕ) : ∀ ws : List GoStr, ∀ i : ℕ,
    i + 1 < (windows w ws).length → ((windows w ws).getD i []).length = w := by
  intro ws
  induction ws using windows.induct w with
  | case1 ws h =>
    rw [windows, if_pos h]; intro i hi; simp at hi
  | case2 ws h ih =>
    rw [windows, if_neg h]
    intro i hi
    cases i with
    | zero =>
      simp only [List.length_cons] at hi
      have htl : windows w (ws.drop w) ≠ [] := by
        intro he; rw [he] at hi; simp at hi
      have hdrop : ws.drop w ≠ [] := by
        intro he
        rw [windows, if_pos (by simp [he])] at htl
        exact htl rfl
      have : w < ws.length := by
        by_contra hle
        exact hdrop (List.drop_eq_nil_of_le (by omega))
      simpa using List.length_take_of_le (by omega)
    | succ j =>
      simp only [List.length_cons] at hi
      simpa using ih j (by omega)

/-- Every word of every window is a word of the original list. -/
theorem windows_mem (w : ℕ) : ∀ ws : List GoStr,
    ∀ b ∈ windows w ws, ∀ x ∈ b, x ∈ ws := by
  intro ws
  induction ws using windows.induct w with
  | case1 ws h => rw [windows, if_pos h]; simp
  | case2 ws h ih =>
    rw [windows, if_neg h]
    intro b hb x hx
    rcases List.mem_cons.mp hb with rfl | hb
    · exact List.mem_of_mem_take hx
    · exact List.mem_of_mem_drop (ih b hb x hx)

/-- The words of each produced chunk are exactly its window. -/
theorem chunk_words (w : ℕ) (ws : List GoStr)
    (hws : ∀ x ∈ ws, x ≠ [] ∧ ∀ c ∈ x, isSpace c = false) :
    (chunkLoop w ws).map fields = windows w ws := by
  rw [chunkLoop_eq_windows, List.map_map]
  have : ∀ b ∈ windows w ws, (fields ∘ joinSp) b = id b := by
    intro b hb
    have : ∀ x ∈ b, x ≠ [] ∧ ∀ c ∈ x, isSpace c = false :=
      fun x hx => hws x (windows_mem w ws b hb x hx)
    simpa using fields_joinSp b this
  rw [List.map_congr_left this, List.map_id]

/-- The window partition of a 1700-word list with window 800. -/
theorem windows_1700 (x : GoStr) :
    windows 800 (List.replicate 1700 x) =
      [List.replicate 800 x, List.replicate 800 x, List.replicate 100 x] := by
  rw [windows]
  rw [if_neg (by simp)]
  rw [List.take_replicate, List.drop_replicate]
  rw [windows]
  rw [if_neg (by simp)]
  rw [List.take_replicate, List.drop_replicate]
  rw [windows]
  rw [if_neg (by simp)]
  rw [List.take_replicate, List.drop_replicate]
  rw [windows]
  norm_num

/-! ### Lemmas about `cosine` -/

/-- Squares summed over the left components of a self-zip. -/
theorem zip_self_sum (f : ℝ × ℝ → ℝ) (g : ℝ → ℝ) (hfg : ∀ x, f (x, x) = g x) :
    ∀ a : List ℝ, ((a.zip a).map f).sum = (a.map g).sum := by
  intro a
  induction a with
  | nil => simp
  | cons x xs ih => simp [List.zip_cons_cons, hfg, ih]

/-- For equal-length vectors the left squares of the zip are the squares
of the left vector. -/
theorem zip_sq_left : ∀ (a b : List ℝ), a.length = b.length →
    ((a.zip b).map fun p => p.1 * p.1).sum = (a.map fun x => x * x).sum := by
  intro a
  induction a with
  | nil => simp
  | cons x xs ih =>
    intro b hb
    cases b with
    | nil => simp at hb
    | cons y ys =>
      simp only [List.length_cons, Nat.add_right_cancel_iff] at hb
      simp [List.zip_cons_cons, ih ys hb]

/-- For equal-length vectors the right squares of the zip are the squares
of the right vector. -/
theorem zip_sq_right : ∀ (a b : List ℝ), a.length = b.length →
    ((a.zip b).map fun p => p.2 * p.2).sum = (b.map fun x => x * x).sum := by
  intro a
  induction a with
  | nil =>
    intro b hb
    cases b with
    | nil => simp
    | cons y ys => simp at hb
  | cons x xs ih =>
    intro b hb
    cases b with
    | nil => simp at hb
    | cons y ys =>
      simp only [List.length_cons, Nat.add_right_cancel_iff] at hb
      simp [List.zip_cons_cons, ih ys hb]

/-- A sum of squares is nonnegative. -/
theorem sum_sq_nonneg (a : List ℝ) : 0 ≤ (a.map fun x => x * x).sum := by
  apply List.sum_nonneg
  intro x hx
  rcases List.mem_map.mp hx with ⟨y, _, rfl⟩
  exact mul_self_nonneg y

/-! ### Lemmas about `%.3f` formatting and `extractScore` parsing -/

/-- Digit characters are digits. -/
theorem digitChar_isDigit (d : ℕ) (h : d < 10) : (digitChar d).isDigit = true := by
  interval_cases d <;> decide

/-- Code point of a digit character. -/
theorem digitChar_toNat (d : ℕ) (h : d < 10) : (digitChar d).toNat = 48 + d := by
  interval_cases d <;> decide

/-- A digit character is not a minus sign. -/
theorem isDigit_ne_minus (c : Char) (h : c.isDigit = true) : ¬ c = '-' := by
  intro hc; subst hc; exact absurd h (by decide)

/-- A digit character is not an opening parenthesis. -/
theorem isDigit_ne_lparen (c : Char) (h : c.isDigit = true) : ¬ c = '(' := by
  intro hc; subst hc; exact absurd h (by decide)

/-- All characters of `fmtNat n` are digits. -/
theorem fmtNat_digits (n : ℕ) : ∀ c ∈ fmtNat n, c.isDigit = true := by
  induction n using fmtNat.induct with
  | case1 n h =>
    rw [fmtNat, if_pos h]
    intro c hc
    simp only [List.mem_singleton] at hc
    exact hc ▸ digitChar_isDigit n h
  | case2 n h ih =>
    rw [fmtNat, if_neg h]
    intro c hc
    rcases List.mem_append.mp hc with h1 | h1
    · exact ih c h1
    · simp only [List.mem_singleton] at h1
      exact h1 ▸ digitChar_isDigit _ (Nat.mod_lt n (by omega))

/-- `fmtNat` produces at least one character. -/
theorem fmtNat_ne_nil (n : ℕ) : fmtNat n ≠ [] := by
  rw [fmtNat]
  split
  · simp
  · simp

/-- `natOfDigits` over a final digit. -/
theorem natOfDigits_concat (xs : GoStr) (c : Char) :
    natOfDigits (xs ++ [c]) = 10 * natOfDigits xs + (c.toNat - 48) := by
  simp [natOfDigits, List.foldl_append]

/-- Decimal printing and reading round-trip. -/
theorem natOfDigits_fmtNat (n : ℕ) : natOfDigits (fmtNat n) = n := by
  induction n using fmtNat.induct with
  | case1 n h =>
    rw [fmtNat, if_pos h]
    simp [natOfDigits, digitChar_toNat n h]
  | case2 n h ih =>
    rw [fmtNat, if_neg h]
    rw [natOfDigits_concat, ih, digitChar_toNat _ (Nat.mod_lt n (by omega))]
    omega

/-- All characters of `pad3 f` (for `f < 1000`) are digits. -/
theorem pad3_digits (f : ℕ) (h : f < 1000) : ∀ c ∈ pad3 f, c.isDigit = true := by
  intro c hc
  simp only [pad3, List.mem_cons, List.not_mem_nil, or_false] at hc
  rcases hc with rfl | rfl | rfl
  · exact digitChar_isDigit _ (by omega)
  · exact digitChar_isDigit _ (Nat.mod_lt _ (by omega))
  · exact digitChar_isDigit _ (Nat.mod_lt _ (by omega))

/-- Three-digit printing and reading round-trip. -/
theorem natOfDigits_pad3 (f : ℕ) (h : f < 1000) : natOfDigits (pad3 f) = f := by
  have h1 : f / 100 < 10 := by omega
  have h2 : f / 10 % 10 < 10 := Nat.mod_lt _ (by omega)
  have h3 : f % 10 < 10 := Nat.mod_lt _ (by omega)
  simp only [pad3, natOfDigits, List.foldl_cons, List.foldl_nil,
    digitChar_toNat _ h1, digitChar_toNat _ h2, digitChar_toNat _ h3]
  omega

/-- Reduction of `parseFloatPrefix` when the head is not a minus sign. -/
theorem parseFloatPrefix_of_ne_minus (c : Char) (t : GoStr) (hc : ¬ c = '-') :
    parseFloatPrefix (c :: t) = parseUnsigned (c :: t) := by
  rw [parseFloatPrefix, if_neg]
  intro h
  simp only [List.head?_cons, Option.some.injEq] at h
  exact hc h

/-- Value parsed back from the digits-dot-digits shape `fmtMilli`
produces for a nonnegative count of thousandths (with a trailing
non-digit continuation). -/
theorem parseUnsigned_fmt (m f : ℕ) (hf : f < 1000) :
    parseUnsigned (fmtNat m ++ '.' :: (pad3 f ++ [')'])) = (m : ℚ) + (f : ℚ) / 1000 := by
  have hdig : ∀ x ∈ fmtNat m, Char.isDigit x = true := fmtNat_digits m
  have hpad : ∀ x ∈ pad3 f, Char.isDigit x = true := pad3_digits f hf
  have hdot : ('.').isDigit = false := by decide
  have hrp : (')').isDigit = false := by decide
  rw [parseUnsigned]
  simp only [takeWhile_append_all _ _ hdig, dropWhile_append_all _ _ hdig,
    List.takeWhile_cons, List.dropWhile_cons, hdot, Bool.false_eq_true, if_false,
    List.append_nil, List.head?_cons, List.drop_one, List.tail_cons, if_true]
  rw [takeWhile_append_all _ _ hpad]
  simp only [List.takeWhile_cons, hrp, Bool.false_eq_true, if_false, List.takeWhile_nil,
    List.append_nil]
  rw [natOfDigits_fmtNat, natOfDigits_pad3 f hf]
  simp only [pad3, List.length_cons, List.length_nil]
  norm_num

/-- Parsing recovers the thousandths printed by `fmtMilli`. -/
theorem parseFloatPrefix_fmtMilli (n : ℤ) :
    parseFloatPrefix (fmtMilli n ++ [')']) = (n : ℚ) / 1000 := by
  by_cases hn : n < 0
  · rw [fmtMilli, if_pos hn]
    have harr : ('-' :: fmtNat (n.natAbs / 1000) ++ '.' :: pad3 (n.natAbs % 1000)) ++ [')'] =
        '-' :: (fmtNat (n.natAbs / 1000) ++ '.' :: (pad3 (n.natAbs % 1000) ++ [')'])) := by
      simp
    rw [harr, parseFloatPrefix]
    rw [if_pos (by simp)]
    simp only [List.drop_one, List.tail_cons]
    rw [parseUnsigned_fmt _ _ (Nat.mod_lt _ (by omega))]
    have key : (n : ℚ) =
        -(((n.natAbs / 1000 : ℕ) : ℚ) * 1000 + ((n.natAbs % 1000 : ℕ) : ℚ)) := by
      have h1 : n = -(((n.natAbs / 1000 : ℕ) : ℤ) * 1000 + ((n.natAbs % 1000 : ℕ) : ℤ)) := by
        have := Nat.div_add_mod n.natAbs 1000
        omega
      exact_mod_cast congrArg (fun z : ℤ => (z : ℚ)) h1
    rw [key]
    field_simp
  · rw [fmtMilli, if_neg hn]
    have harr : (fmtNat (n.toNat / 1000) ++ '.' :: pad3 (n.toNat % 1000)) ++ [')'] =
        fmtNat (n.toNat / 1000) ++ '.' :: (pad3 (n.toNat % 1000) ++ [')']) := by
      simp
    rw [harr]
    obtain ⟨c, t, hct⟩ : ∃ c t, fmtNat (n.toNat / 1000) = c :: t := by
      cases hf : fmtNat (n.toNat / 1000) with
      | nil => exact absurd hf (fmtNat_ne_nil _)
      | cons c t => exact ⟨c, t, rfl⟩
    have hcd : c.isDigit = true := fmtNat_digits _ c (by rw [hct]; simp)
    rw [hct, List.cons_append,
      parseFloatPrefix_of_ne_minus c _ (isDigit_ne_minus c hcd),
      ← List.cons_append, ← hct, parseUnsigned_fmt _ _ (Nat.mod_lt _ (by omega))]
    have key : (n : ℚ) = ((n.toNat / 1000 : ℕ) : ℚ) * 1000 + ((n.toNat % 1000 : ℕ) : ℚ) := by
      have h2 : ((n.toNat : ℕ) : ℚ) = (n : ℚ) := by
        exact_mod_cast congrArg (fun z : ℤ => (z : ℚ)) (by omega : (n.toNat : ℤ) = n)
      rw [← h2]
      have h3 : n.toNat = n.toNat / 1000 * 1000 + n.toNat % 1000 := by omega
      conv_lhs => rw [h3]
      push_cast
      ring
    rw [key]
    field_simp

/-- The last satisfying index of a filtered range. -/
theorem getLast_filter_range (P : ℕ → Bool) :
    ∀ N n : ℕ, n < N → P n = true → (∀ m, n < m → m < N → P m = false) →
    ((List.range N).filter P).getLast? = some n := by
  intro N
  induction N with
  | zero => intro n hn; omega
  | succ M ih =>
    intro n hn hP hmax
    rw [List.range_succ, List.filter_append]
    by_cases hnM : n = M
    · subst hnM
      rw [show List.filter P [n] = [n] by simp [hP]]
      exact List.getLast?_concat _
    · have hlt : n < M := by omega
      have hPM : P M = false := hmax M hlt (by omega)
      rw [show List.filter P [M] = [] by simp [hPM], List.append_nil]
      exact ih n hlt hP (fun m h1 h2 => hmax m h1 (by omega))

/-- A pattern is a prefix of itself followed by anything. -/
theorem isPrefixOf_self_append (p s : GoStr) : p.isPrefixOf (p ++ s) = true := by
  rw [List.isPrefixOf_iff_prefix]
  exact List.prefix_append p s

/-- `"(sim="` cannot start inside a parenthesis-free string. -/
theorem prefix_lparen_false (t : GoStr) (ht : '(' ∉ t) (j : ℕ) :
    (("(sim=").toList).isPrefixOf (t.drop j) = false := by
  cases hdj : t.drop j with
  | nil => rfl
  | cons c r =>
    have hc : c ∈ t := List.mem_of_mem_drop (hdj ▸ List.mem_cons_self c r)
    have hcne : ¬ ('(' = c) := fun h => ht (h ▸ hc)
    show (('(' :: ("sim=").toList).isPrefixOf (c :: r)) = false
    simp [List.isPrefixOf, hcne]

/-- Characters of `fmtMilli` are digits, a dot, or a minus sign; in
particular never a parenthesis. -/
theorem fmtMilli_no_lparen (n : ℤ) : '(' ∉ fmtMilli n := by
  have hdig : ∀ m : ℕ, '(' ∉ fmtNat m := fun m h =>
    absurd (fmtNat_digits m '(' h) (by decide)
  have hpad : ∀ f : ℕ, f < 1000 → '(' ∉ pad3 f := by
    intro f hf h
    exact absurd (pad3_digits f hf '(' h) (by decide)
  intro hmem
  rw [fmtMilli] at hmem
  split at hmem
  · rcases List.mem_cons.mp hmem with h | h
    · exact absurd h (by decide)
    · rcases List.mem_append.mp h with h | h
      · exact hdig _ h
      · rcases List.mem_cons.mp h with h | h
        · exact absurd h (by decide)
        · exact hpad _ (Nat.mod_lt _ (by omega)) h
  · rcases List.mem_append.mp hmem with h | h
    · exact hdig _ h
    · rcases List.mem_cons.mp h with h | h
      · exact absurd h (by decide)
      · exact hpad _ (Nat.mod_lt _ (by omega)) h

/-- In a snippet with the similarity suffix appended, the last occurrence
of `"(sim="` is the one inside the appended suffix. -/
theorem lastIndexSub_simSuffix (snip : GoStr) (x : ℝ) :
    lastIndexSub (snip ++ simSuffix x) (("(sim=").toList) = some (snip.length + 1) := by
  have hsplitA : snip ++ simSuffix x =
      (snip ++ [' ']) ++ ((("(sim=").toList) ++ (fmt3 x ++ [')'])) := by
    simp [simSuffix]
  have hsplitB : snip ++ simSuffix x =
      (snip ++ [' ', '(']) ++ ((("sim=").toList) ++ (fmt3 x ++ [')'])) := by
    simp [simSuffix]
  have hlenTot : snip.length + 1 < (snip ++ simSuffix x).length + 1 := by
    have h6 : ((" (sim=").toList).length = 6 := by decide
    simp only [simSuffix, List.length_append, List.length_cons, List.length_nil, h6]
    omega
  apply getLast_filter_range _ _ _ hlenTot
  · rw [hsplitA]
    rw [show snip.length + 1 = (snip ++ [' ']).length + 0 by simp]
    rw [List.drop_append, List.drop_zero]
    exact isPrefixOf_self_append _ _
  · intro m hm _
    rw [hsplitB]
    obtain ⟨j, rfl⟩ : ∃ j, m = (snip ++ [' ', '(']).length + j := by
      refine ⟨m - (snip.length + 2), ?_⟩
      simp only [List.length_append, List.length_cons, List.length_nil]
      omega
    rw [List.drop_append]
    apply prefix_lparen_false
    intro hmem
    rcases List.mem_append.mp hmem with h | h
    · exact absurd h (by decide)
    · rcases List.mem_append.mp h with h | h
      · rw [fmt3] at h
        exact fmtMilli_no_lparen _ h
      · rcases List.mem_cons.mp h with h | h
        · exact absurd h (by decide)
        · exact absurd h (List.not_mem_nil _)

/-- The score parsed back from a snippet with the similarity suffix is
exactly the rounded similarity in thousandths. -/
theorem extractScore_append (snip : GoStr) (x : ℝ) :
    extractScore (snip ++ simSuffix x) = ((round3 x : ℤ) : ℚ) / 1000 := by
  have hsplit : snip ++ simSuffix x =
      (snip ++ (" (sim=").toList) ++ (fmt3 x ++ [')']) := by
    simp [simSuffix]
  rw [extractScore, lastIndexSub_simSuffix]
  show parseFloatPrefix ((snip ++ simSuffix x).drop (snip.length + 1 + 5)) = _
  have hidx : snip.length + 1 + 5 = (snip ++ (" (sim=").toList).length + 0 := by
    simp
  rw [hsplit, hidx, List.drop_append, List.drop_zero, fmt3]
  exact parseFloatPrefix_fmtMilli _

/-! ### Lemmas about `topK`: selection equals stable descending sort -/

/-- Unfolding of the running maximum. -/
theorem maxScoreFrom_cons (bs : ℚ) (y : docChunk) (ys : List docChunk) :
    maxScoreFrom bs (y :: ys) = maxScoreFrom (max bs (chunkScore y)) ys := rfl

/-- The running maximum peels off an outer `max`. -/
theorem maxScoreFrom_max (l : List docChunk) :
    ∀ a b : ℚ, maxScoreFrom (max a b) l = max a (maxScoreFrom b l) := by
  induction l with
  | nil => intro a b; simp [maxScoreFrom]
  | cons y ys ih =>
    intro a b
    rw [maxScoreFrom_cons, max_assoc, ih, maxScoreFrom_cons]

/-- The seed bounds the running maximum from below. -/
theorem le_maxScoreFrom (l : List docChunk) : ∀ bs : ℚ, bs ≤ maxScoreFrom bs l := by
  induction l with
  | nil => intro bs; simp [maxScoreFrom]
  | cons y ys ih =>
    intro bs
    rw [maxScoreFrom_cons]
    exact le_trans (le_max_left _ _) (ih _)

/-- Every member's score is bounded by the running maximum. -/
theorem maxScoreFrom_mem_le {y : docChunk} {l : List docChunk} (h : y ∈ l) :
    ∀ bs : ℚ, chunkScore y ≤ maxScoreFrom bs l := by
  induction l with
  | nil => simp at h
  | cons z zs ih =>
    intro bs
    rcases List.mem_cons.mp h with rfl | h
    · rw [maxScoreFrom_cons]
      exact le_trans (le_max_right _ _) (le_maxScoreFrom _ _)
    · exact ih h _

/-- A seed dominating every member is the running maximum. -/
theorem maxScoreFrom_of_all_le {l : List docChunk} :
    ∀ bs : ℚ, (∀ y ∈ l, chunkScore y ≤ bs) → maxScoreFrom bs l = bs := by
  induction l with
  | nil => intro bs _; rfl
  | cons y ys ih =>
    intro bs h
    rw [maxScoreFrom_cons, max_eq_left (h y (by simp))]
    exact ih bs (fun z hz => h z (by simp [hz]))

/-- The running maximum is the seed or is attained by a member. -/
theorem maxScoreFrom_attained (l : List docChunk) :
    ∀ bs : ℚ, maxScoreFrom bs l = bs ∨ ∃ y ∈ l, maxScoreFrom bs l = chunkScore y := by
  induction l with
  | nil => intro bs; left; rfl
  | cons y ys ih =>
    intro bs
    rw [maxScoreFrom_cons]
    rcases ih (max bs (chunkScore y)) with h | ⟨z, hz, he⟩
    · rcases le_total (chunkScore y) bs with hy | hy
      · left; rw [h, max_eq_left hy]
      · right; exact ⟨y, by simp, by rw [h, max_eq_right hy]⟩
    · right; exact ⟨z, by simp [hz], he⟩

/-- The selection scan returns the incumbent when nothing beats it. -/
theorem bestIdxAux_all_le {l : List docChunk} :
    ∀ (j best : ℕ) (bs : ℚ), (∀ y ∈ l, chunkScore y ≤ bs) →
    bestIdxAux l j best bs = best := by
  induction l with
  | nil => intro j best bs _; rfl
  | cons y ys ih =>
    intro j best bs h
    rw [bestIdxAux, if_neg (by simpa using h y (by simp))]
    exact ih _ _ _ (fun z hz => h z (by simp [hz]))

/-- When something beats the incumbent, the selection scan returns the
offset of the first member attaining the running maximum. -/
theorem bestIdxAux_exists {l : List docChunk} :
    ∀ (j best : ℕ) (bs : ℚ), (∃ y ∈ l, bs < chunkScore y) →
    bestIdxAux l j best bs =
      j + l.findIdx (fun y => decide (chunkScore y = maxScoreFrom bs l)) := by
  induction l with
  | nil => intro j best bs h; simp at h
  | cons y ys ih =>
    intro j best bs hex
    by_cases hy : bs < chunkScore y
    · rw [bestIdxAux, if_pos (by simpa using hy)]
      have hmax : max bs (chunkScore y) = chunkScore y := max_eq_right (le_of_lt hy)
      by_cases hex2 : ∃ z ∈ ys, chunkScore y < chunkScore z
      · rw [ih (j + 1) j (chunkScore y) hex2]
        have hylt : chunkScore y < maxScoreFrom (chunkScore y) ys := by
          obtain ⟨z, hz, hzy⟩ := hex2
          exact lt_of_lt_of_le hzy (maxScoreFrom_mem_le hz _)
        rw [List.findIdx_cons]
        rw [maxScoreFrom_cons, hmax]
        have hpy : decide (chunkScore y = maxScoreFrom (chunkScore y) ys) = false := by
          simp only [decide_eq_false_iff_not]
          exact fun h => absurd h (ne_of_lt hylt)
        rw [hpy]
        simp
        omega
      · push_neg at hex2
        rw [bestIdxAux_all_le _ _ _ hex2]
        rw [List.findIdx_cons, maxScoreFrom_cons, hmax,
          maxScoreFrom_of_all_le _ hex2]
        simp
    · rw [bestIdxAux, if_neg (by simpa using hy)]
      have hyle : chunkScore y ≤ bs := not_lt.mp hy
      have hmax : max bs (chunkScore y) = bs := max_eq_left hyle
      have hex2 : ∃ z ∈ ys, bs < chunkScore z := by
        obtain ⟨z, hz, hzgt⟩ := hex
        rcases List.mem_cons.mp hz with rfl | hz
        · exact absurd hzgt hy
        · exact ⟨z, hz, hzgt⟩
      rw [ih (j + 1) best bs hex2]
      rw [List.findIdx_cons, maxScoreFrom_cons, hmax]
      have hylt : chunkScore y < maxScoreFrom bs ys := by
        obtain ⟨z, hz, hzgt⟩ := hex2
        exact lt_of_le_of_lt hyle (lt_of_lt_of_le hzgt (maxScoreFrom_mem_le hz _))
      have hpy : decide (chunkScore y = maxScoreFrom bs ys) = false := by
        simp only [decide_eq_false_iff_not]
        exact fun h => absurd h (ne_of_lt hylt)
      rw [hpy]
      simp
      omega

/-- The selected index is the first index attaining the maximal score. -/
theorem bestIdx_eq_findIdx (x : docChunk) (xs : List docChunk) :
    bestIdx (x :: xs) =
      (x :: xs).findIdx
        (fun y => decide (chunkScore y = maxScoreFrom (chunkScore x) xs)) := by
  by_cases hex : ∃ y ∈ xs, chunkScore x < chunkScore y
  · rw [bestIdx, bestIdxAux_exists 1 0 _ hex]
    have hxM : chunkScore x ≠ maxScoreFrom (chunkScore x) xs := by
      obtain ⟨y, hy, hxy⟩ := hex
      exact ne_of_lt (lt_of_lt_of_le hxy (maxScoreFrom_mem_le hy _))
    rw [List.findIdx_cons]
    have : decide (chunkScore x = maxScoreFrom (chunkScore x) xs) = false := by
      simpa using hxM
    rw [this]
    simp only [cond_false]
    omega
  · push_neg at hex
    rw [bestIdx, bestIdxAux_all_le _ _ _ hex]
    rw [List.findIdx_cons]
    have : decide (chunkScore x = maxScoreFrom (chunkScore x) xs) = true := by
      simp [maxScoreFrom_of_all_le _ hex]
    rw [this]
    rfl

/-- The element `findIdx` stops at satisfies the predicate. -/
theorem findIdx_getD (p : docChunk → Bool) (d : docChunk) :
    ∀ l : List docChunk, l.findIdx p < l.length → p (l.getD (l.findIdx p) d) = true := by
  intro l
  induction l with
  | nil => intro h; simp at h
  | cons y ys ih =>
    intro h
    rw [List.findIdx_cons] at h ⊢
    cases hp : p y with
    | true => simp [hp]
    | false =>
      simp only [hp, cond_false] at h ⊢
      rw [List.getD_cons_succ]
      exact ih (by simpa using h)

/-- `findIdx` is in bounds when the predicate holds somewhere. -/
theorem findIdx_lt_of_exists (p : docChunk → Bool) :
    ∀ l : List docChunk, (∃ y ∈ l, p y = true) → l.findIdx p < l.length := by
  intro l
  induction l with
  | nil => intro h; simp at h
  | cons y ys ih =>
    intro ⟨z, hz, hpz⟩
    rw [List.findIdx_cons]
    cases hp : p y with
    | true => simp
    | false =>
      simp only [cond_false, List.length_cons]
      have : z ∈ ys := by
        rcases List.mem_cons.mp hz with rfl | h
        · exact absurd hpz (by simp [hp])
        · exact h
      exact Nat.succ_lt_succ (ih ⟨z, this, hpz⟩)

/-- The selected index is in bounds for nonempty input. -/
theorem bestIdx_lt (x : docChunk) (xs : List docChunk) :
    bestIdx (x :: xs) < (x :: xs).length := by
  rw [bestIdx_eq_findIdx]
  apply findIdx_lt_of_exists
  rcases maxScoreFrom_attained xs (chunkScore x) with h | ⟨y, hy, he⟩
  · exact ⟨x, by simp, by simp [h]⟩
  · exact ⟨y, by simp [hy], by simp [he.symm]⟩

/-- Membership in a stable insertion. -/
theorem mem_insertDesc {z x : docChunk} :
    ∀ l : List docChunk, z ∈ insertDesc x l ↔ z = x ∨ z ∈ l := by
  intro l
  induction l with
  | nil => simp [insertDesc]
  | cons y ys ih =>
    rw [insertDesc]
    split
    · simp only [List.mem_cons, ih]
      tauto
    · simp only [List.mem_cons]

/-- Membership in the stable sort. -/
theorem mem_sortDesc {z : docChunk} :
    ∀ l : List docChunk, z ∈ sortDesc l ↔ z ∈ l := by
  intro l
  induction l with
  | nil => simp [sortDesc]
  | cons y ys ih =>
    rw [sortDesc, mem_insertDesc, ih]
    simp

/-- Length of a stable insertion. -/
theorem length_insertDesc (x : docChunk) :
    ∀ l : List docChunk, (insertDesc x l).length = l.length + 1 := by
  intro l
  induction l with
  | nil => rfl
  | cons y ys ih =>
    rw [insertDesc]
    split
    · simp [ih]
    · simp

/-- The stable sort preserves length. -/
theorem length_sortDesc : ∀ l : List docChunk, (sortDesc l).length = l.length := by
  intro l
  induction l with
  | nil => rfl
  | cons y ys ih => rw [sortDesc, length_insertDesc, ih]; rfl

/-- Score of the element the selection scan picks: the maximal score. -/
theorem bestIdx_score (x : docChunk) (xs : List docChunk) :
    chunkScore ((x :: xs).getD (bestIdx (x :: xs)) dummyChunk) =
      maxScoreFrom (chunkScore x) xs := by
  rw [bestIdx_eq_findIdx]
  have hex : ∃ y ∈ x :: xs,
      (fun y => decide (chunkScore y = maxScoreFrom (chunkScore x) xs)) y = true := by
    rcases maxScoreFrom_attained xs (chunkScore x) with h | ⟨y, hy, he⟩
    · exact ⟨x, by simp, by simp [h]⟩
    · exact ⟨y, by simp [hy], by simp [he.symm]⟩
  have := findIdx_getD _ dummyChunk (x :: xs) (findIdx_lt_of_exists _ _ hex)
  simpa using this

/-- When the head does not attain the maximum, the running maximum of
the tail agrees with that of the whole list. -/
theorem maxScoreFrom_cons_of_lt (x x2 : docChunk) (xs2 : List docChunk)
    (h : chunkScore x < maxScoreFrom (chunkScore x) (x2 :: xs2)) :
    maxScoreFrom (chunkScore x) (x2 :: xs2) = maxScoreFrom (chunkScore x2) xs2 := by
  have h1 : maxScoreFrom (chunkScore x) (x2 :: xs2) =
      max (chunkScore x) (maxScoreFrom (chunkScore x2) xs2) := by
    rw [maxScoreFrom_cons, maxScoreFrom_max]
  rcases max_choice (chunkScore x) (maxScoreFrom (chunkScore x2) xs2) with hc | hc
  · rw [h1, hc] at h
    exact absurd h (lt_irrefl _)
  · rw [h1, hc]

/-- Head decomposition of the stable sort: the first maximal-score
element comes out first, followed by the sort of the rest. -/
theorem sortDesc_select : ∀ l : List docChunk, l ≠ [] →
    sortDesc l = l.getD (bestIdx l) dummyChunk
      :: sortDesc (l.eraseIdx (bestIdx l)) := by
  intro l
  induction l with
  | nil => intro h; exact absurd rfl h
  | cons x xs ih =>
    intro _
    cases xs with
    | nil => simp [bestIdx, bestIdxAux, sortDesc, insertDesc]
    | cons x2 xs2 =>
      by_cases hxM : chunkScore x = maxScoreFrom (chunkScore x) (x2 :: xs2)
      · have hb : bestIdx (x :: x2 :: xs2) = 0 := by
          rw [bestIdx_eq_findIdx, List.findIdx_cons]
          rw [show decide (chunkScore x = maxScoreFrom (chunkScore x) (x2 :: xs2)) = true
            by simpa using hxM]
          rfl
        rw [hb, List.getD_cons_zero, List.eraseIdx_cons_zero]
        show insertDesc x (sortDesc (x2 :: xs2)) = x :: sortDesc (x2 :: xs2)
        cases hs : sortDesc (x2 :: xs2) with
        | nil => rfl
        | cons m R =>
          have hmem : m ∈ x2 :: xs2 := (mem_sortDesc _).mp (by rw [hs]; simp)
          have hle : chunkScore m ≤ chunkScore x := by
            rw [hxM]
            exact maxScoreFrom_mem_le hmem _
          rw [insertDesc, if_neg (not_lt.mpr hle)]
      · have hxlt : chunkScore x < maxScoreFrom (chunkScore x) (x2 :: xs2) :=
          lt_of_le_of_ne (le_maxScoreFrom _ _) hxM
        have hM2 := maxScoreFrom_cons_of_lt x x2 xs2 hxlt
        have hb : bestIdx (x :: x2 :: xs2) = bestIdx (x2 :: xs2) + 1 := by
          rw [bestIdx_eq_findIdx, List.findIdx_cons]
          rw [show decide (chunkScore x = maxScoreFrom (chunkScore x) (x2 :: xs2)) = false
            by simpa using hxM]
          simp only [cond_false]
          rw [bestIdx_eq_findIdx x2 xs2, hM2]
        have hIH := ih (by simp)
        have hscore_m : chunkScore ((x2 :: xs2).getD (bestIdx (x2 :: xs2)) dummyChunk) =
            maxScoreFrom (chunkScore x2) xs2 := bestIdx_score x2 xs2
        rw [hb, List.getD_cons_succ, List.eraseIdx_cons_succ]
        show insertDesc x (sortDesc (x2 :: xs2)) = _
        rw [hIH]
        rw [insertDesc, if_pos (by rw [hscore_m, ← hM2]; exact hxlt)]
        rfl

/-- `topK` is the `k`-prefix of the stable descending sort (fuelled form
of the induction on the item count). -/
theorem topK_eq_take_aux : ∀ (n : ℕ) (items : List docChunk), items.length ≤ n →
    ∀ k : ℕ, topK items k = (sortDesc items).take k := by
  intro n
  induction n with
  | zero =>
    intro items hlen k
    have : items = [] := List.length_eq_zero.mp (by omega)
    subst this
    cases k <;> simp [topK, sortDesc]
  | succ n ih =>
    intro items hlen k
    cases items with
    | nil => cases k <;> simp [topK, sortDesc]
    | cons x xs =>
      cases k with
      | zero => simp [topK]
      | succ k =>
        rw [topK]
        rw [sortDesc_select (x :: xs) (by simp), List.take_succ_cons]
        have hb := bestIdx_lt x xs
        have herase : ((x :: xs).eraseIdx (bestIdx (x :: xs))).length ≤ n := by
          rw [List.length_eraseIdx, if_pos hb]
          simp only [List.length_cons] at hlen ⊢
          omega
        rw [ih _ herase k]

/-- `topK` is the `k`-prefix of the stable descending sort. -/
theorem topK_eq_take_sortDesc (items : List docChunk) (k : ℕ) :
    topK items k = (sortDesc items).take k :=
  topK_eq_take_aux items.length items le_rfl k

/-- Stable insertion preserves descending sortedness. -/
theorem pairwise_insertDesc (x : docChunk) :
    ∀ l : List docChunk,
    l.Pairwise (fun a b => chunkScore b ≤ chunkScore a) →
    (insertDesc x l).Pairwise (fun a b => chunkScore b ≤ chunkScore a) := by
  intro l
  induction l with
  | nil => intro _; simp [insertDesc]
  | cons y ys ih =>
    intro hp
    rw [List.pairwise_cons] at hp
    rw [insertDesc]
    split
    · rename_i hlt
      rw [List.pairwise_cons]
      constructor
      · intro z hz
        rcases (mem_insertDesc ys).mp hz with rfl | hz
        · exact le_of_lt hlt
        · exact hp.1 z hz
      · exact ih hp.2
    · rename_i hge
      rw [List.pairwise_cons]
      constructor
      · intro z hz
        rcases List.mem_cons.mp hz with rfl | hz
        · exact not_lt.mp hge
        · exact le_trans (hp.1 z hz) (not_lt.mp hge)
      · rw [List.pairwise_cons]
        exact hp

/-- The stable sort is sorted in non-increasing score order. -/
theorem sortDesc_sorted : ∀ l : List docChunk,
    (sortDesc l).Pairwise (fun a b => chunkScore b ≤ chunkScore a) := by
  intro l
  induction l with
  | nil => simp [sortDesc]
  | cons y ys ih => exact pairwise_insertDesc y _ ih

/-- The output of `topK` is sorted in non-increasing score order. -/
theorem topK_sorted (items : List docChunk) (k : ℕ) :
    (topK items k).Pairwise (fun a b => chunkScore b ≤ chunkScore a) := by
  rw [topK_eq_take_sortDesc]
  exact (sortDesc_sorted items).sublist (List.take_sublist k _)

/-- Length of the `topK` output. -/
theorem topK_length (items : List docChunk) (k : ℕ) :
    (topK items k).length = min k items.length := by
  rw [topK_eq_take_sortDesc, List.length_take, length_sortDesc]

/-! ### Lemmas about `Deduplicate` -/

/-- Effect of the deletion fold on the two tables: exactly the rows
whose (document) id is among the processed ids disappear, in one pass
order-preservingly. -/
theorem dedup_foldl_tables : ∀ (ids : List ℕ) (st : Store) (n : ℕ),
    (ids.foldl dedupStep (st, n)).1.documents =
      st.documents.filter (fun d => !(ids.contains d.id)) ∧
    (ids.foldl dedupStep (st, n)).1.embeddings =
      st.embeddings.filter (fun e => !(ids.contains e.docId)) := by
  intro ids
  induction ids with
  | nil =>
    intro st n
    constructor <;> simp
  | cons i rest ih =>
    intro st n
    rw [List.foldl_cons]
    have hstep : dedupStep (st, n) i =
        (⟨(st.documents.filter fun d => !(d.id == i)),
          (st.embeddings.filter fun e => !(e.docId == i)), st.nextId⟩,
         n + (st.documents.filter fun d => d.id == i).length) := rfl
    rw [hstep]
    obtain ⟨h1, h2⟩ := ih _ _
    rw [h1, h2]
    constructor
    · rw [List.filter_filter]
      apply List.filter_congr
      intro d _
      by_cases h : d.id = i <;> simp [h]
    · rw [List.filter_filter]
      apply List.filter_congr
      intro e _
      by_cases h : e.docId = i <;> simp [h]

/-- A list with duplicate-free ids has exactly one row per present id. -/
theorem filter_id_singleton : ∀ (l : List Document) (i : ℕ),
    (l.map fun d => d.id).Nodup → i ∈ l.map (fun d => d.id) →
    (l.filter fun d => d.id == i).length = 1 := by
  intro l
  induction l with
  | nil => intro i _ h; simp at h
  | cons d ds ih =>
    intro i hnd hmem
    rw [List.map_cons, List.nodup_cons] at hnd
    rw [List.filter_cons]
    by_cases h : d.id = i
    · rw [if_pos (by simp [h])]
      have : ds.filter (fun d' => d'.id == i) = [] := by
        rw [List.filter_eq_nil_iff]
        intro d' hd'
        simp only [beq_iff_eq]
        intro he
        exact hnd.1 (by rw [h, ← he]; exact List.mem_map_of_mem _ hd')
      rw [this]
      rfl
    · rw [if_neg (by simp [h])]
      rw [List.map_cons, List.mem_cons] at hmem
      rcases hmem with hq | hq
      · exact absurd hq.symm h
      · exact ih i hnd.2 hq

/-- Equal ids force equal rows when ids are duplicate-free. -/
theorem id_inj (l : List Document) (hnd : (l.map fun d => d.id).Nodup)
    (a : Document) (ha : a ∈ l) (b : Document) (hb : b ∈ l) (hab : a.id = b.id) :
    a = b := by
  have hfa : a ∈ l.filter (fun d => d.id == a.id) :=
    List.mem_filter.mpr ⟨ha, by simp⟩
  have hfb : b ∈ l.filter (fun d => d.id == a.id) :=
    List.mem_filter.mpr ⟨hb, by simp [hab]⟩
  have hlen := filter_id_singleton l a.id hnd (List.mem_map_of_mem _ ha)
  obtain ⟨c, hc⟩ := List.length_eq_one.mp hlen
  rw [hc, List.mem_singleton] at hfa hfb
  rw [hfa, hfb]

/-- Under duplicate-free ids, membership of a row's id in `dupIDs` is
exactly the row being a duplicate (some same-URL row with smaller id). -/
theorem mem_dupIDs_iff (st : Store) (hnd : (st.documents.map fun d => d.id).Nodup)
    (d : Document) (hd : d ∈ st.documents) :
    d.id ∈ dupIDs st ↔
      ∃ d2 ∈ st.documents, d2.url = d.url ∧ d2.id < d.id := by
  constructor
  · intro hmem
    rw [dupIDs] at hmem
    rcases List.mem_map.mp hmem with ⟨d', hd', hid⟩
    have hd'mem : d' ∈ st.documents := List.mem_of_mem_filter hd'
    have : d' = d := id_inj _ hnd d' hd'mem d hd hid
    subst this
    have := List.of_mem_filter hd'
    rcases List.any_eq_true.mp this with ⟨d2, hd2, hp⟩
    simp only [Bool.and_eq_true, beq_iff_eq, decide_eq_true_eq] at hp
    exact ⟨d2, hd2, hp.1, hp.2⟩
  · intro ⟨d2, hd2, hurl, hlt⟩
    rw [dupIDs]
    apply List.mem_map_of_mem
    rw [List.mem_filter]
    refine ⟨hd, ?_⟩
    rw [List.any_eq_true]
    exact ⟨d2, hd2, by simp [hurl, hlt]⟩

/-- `dupIDs` draws from the table's ids and is duplicate-free when they
are. -/
theorem dupIDs_sub_nodup (st : Store) (hnd : (st.documents.map fun d => d.id).Nodup) :
    (∀ i ∈ dupIDs st, i ∈ st.documents.map fun d => d.id) ∧ (dupIDs st).Nodup := by
  constructor
  · intro i hi
    rcases List.mem_map.mp hi with ⟨d, hd, rfl⟩
    exact List.mem_map_of_mem _ (List.mem_of_mem_filter hd)
  · rw [dupIDs]
    have hsub : (st.documents.filter fun d =>
        st.documents.any fun d2 => d2.url == d.url && decide (d2.id < d.id)).Sublist
        st.documents := List.filter_sublist _
    exact (hsub.map fun d => d.id).nodup hnd

/-- The removed-row counter counts one for every processed id, as long
as the ids are distinct and all present. -/
theorem dedup_foldl_count : ∀ (ids : List ℕ) (st : Store) (n : ℕ),
    ids.Nodup → (∀ i ∈ ids, i ∈ st.documents.map fun d => d.id) →
    (st.documents.map fun d => d.id).Nodup →
    (ids.foldl dedupStep (st, n)).2 = n + ids.length := by
  intro ids
  induction ids with
  | nil => intro st n _ _ _; rfl
  | cons i rest ih =>
    intro st n hnd hpres hdocs
    rw [List.foldl_cons]
    have hstep : dedupStep (st, n) i =
        (⟨(st.documents.filter fun d => !(d.id == i)),
          (st.embeddings.filter fun e => !(e.docId == i)), st.nextId⟩,
         n + (st.documents.filter fun d => d.id == i).length) := rfl
    rw [hstep]
    rw [List.nodup_cons] at hnd
    have haf : (st.documents.filter fun d => d.id == i).length = 1 :=
      filter_id_singleton st.documents i hdocs (hpres i (by simp))
    have hsub2 : (st.documents.filter fun d => !(d.id == i)).Sublist st.documents :=
      List.filter_sublist _
    have hdocs' : ((st.documents.filter fun d => !(d.id == i)).map fun d => d.id).Nodup :=
      (hsub2.map fun d => d.id).nodup hdocs
    have hpres' : ∀ j ∈ rest, j ∈ (st.documents.filter fun d => !(d.id == i)).map
        fun d => d.id := by
      intro j hj
      rcases List.mem_map.mp (hpres j (by simp [hj])) with ⟨d, hd, rfl⟩
      apply List.mem_map_of_mem
      rw [List.mem_filter]
      have hne2 : ¬ d.id = i := by
        intro he
        exact hnd.1 (he ▸ hj)
      exact ⟨hd, by simpa using hne2⟩
    rw [ih _ _ hnd.2 hpres' hdocs', haf]
    simp only [List.length_cons]
    omega

/-- Referential consistency survives deleting a document's embeddings. -/
theorem consistent_deleteEmbFor (st : Store) (i : ℕ) (h : consistent st) :
    consistent (deleteEmbFor st i) := by
  intro e he
  exact h e (List.mem_of_mem_filter he)

/-- Referential consistency survives deleting a document row once its
embeddings are gone. -/
theorem consistent_deleteDocRow_after (st : Store) (i : ℕ) (h : consistent st) :
    consistent (deleteDocRow (deleteEmbFor st i) i).1 := by
  intro e he
  have he' : e ∈ (deleteEmbFor st i).embeddings := he
  have hne : ¬ e.docId = i := by
    have := List.of_mem_filter he'
    simpa using this
  obtain ⟨d, hd, hid⟩ := h e (List.mem_of_mem_filter he')
  refine ⟨d, ?_, hid⟩
  show d ∈ (deleteEmbFor st i).documents.filter fun d => !(d.id == i)
  rw [List.mem_filter]
  have hne2 : ¬ d.id = i := by rw [hid]; exact hne
  exact ⟨hd, by simpa using hne2⟩

/-- Every state passed through by the deletion fold is consistent. -/
theorem dedupTrace_consistent (st : Store) (h : consistent st) :
    ∀ s ∈ dedupTrace st, consistent s := by
  rw [dedupTrace]
  have main : ∀ (ids : List ℕ) (acc : Store × List Store),
      consistent acc.1 → (∀ s ∈ acc.2, consistent s) →
      consistent (ids.foldl (fun acc i =>
        let st1 := deleteEmbFor acc.1 i
        let st2 := (deleteDocRow st1 i).1
        (st2, acc.2 ++ [st1, st2])) acc).1 ∧
      ∀ s ∈ (ids.foldl (fun acc i =>
        let st1 := deleteEmbFor acc.1 i
        let st2 := (deleteDocRow st1 i).1
        (st2, acc.2 ++ [st1, st2])) acc).2, consistent s := by
    intro ids
    induction ids with
    | nil => intro acc h1 h2; exact ⟨h1, h2⟩
    | cons i rest ih =>
      intro acc h1 h2
      rw [List.foldl_cons]
      apply ih
      · exact consistent_deleteDocRow_after _ _ h1
      · intro s hs
        rcases List.mem_append.mp hs with hs | hs
        · exact h2 s hs
        · rcases List.mem_cons.mp hs with rfl | hs
          · exact consistent_deleteEmbFor _ _ h1
          · rcases List.mem_cons.mp hs with rfl | hs
            · exact consistent_deleteDocRow_after _ _ h1
            · simp at hs
  intro s hs
  exact (main (dupIDs st) (st, [st]) h (by intro s' hs'; simp at hs'; exact hs' ▸ h)).2 s hs

/-- The store component of the trace fold follows the deletion fold. -/
theorem dedupTrace_fst : ∀ (ids : List ℕ) (s0 : Store) (ts : List Store) (n : ℕ),
    (ids.foldl (fun acc i =>
        let st1 := deleteEmbFor acc.1 i
        let st2 := (deleteDocRow st1 i).1
        (st2, acc.2 ++ [st1, st2])) (s0, ts)).1 =
    (ids.foldl dedupStep (s0, n)).1 := by
  intro ids
  induction ids with
  | nil => intro s0 ts n; rfl
  | cons i rest ih =>
    intro s0 ts n
    rw [List.foldl_cons, List.foldl_cons]
    exact ih _ _ _

/-- The last state of the trace is the final store of `Deduplicate`. -/
theorem dedupTrace_getLast (st : Store) :
    (dedupTrace st).getLast? = some (Deduplicate st).1 := by
  rw [dedupTrace, Deduplicate]
  have main : ∀ (ids : List ℕ) (s0 : Store) (ts : List Store),
      ts.getLast? = some s0 →
      (ids.foldl (fun acc i =>
          let st1 := deleteEmbFor acc.1 i
          let st2 := (deleteDocRow st1 i).1
          (st2, acc.2 ++ [st1, st2])) (s0, ts)).2.getLast? =
        some (ids.foldl (fun acc i =>
          let st1 := deleteEmbFor acc.1 i
          let st2 := (deleteDocRow st1 i).1
          (st2, acc.2 ++ [st1, st2])) (s0, ts)).1 := by
    intro ids
    induction ids with
    | nil => intro s0 ts h; exact h
    | cons i rest ih =>
      intro s0 ts h
      rw [List.foldl_cons]
      apply ih
      rw [show ts ++ [deleteEmbFor s0 i, (deleteDocRow (deleteEmbFor s0 i) i).1] =
        (ts ++ [deleteEmbFor s0 i]) ++ [(deleteDocRow (deleteEmbFor s0 i) i).1] by simp]
      exact List.getLast?_concat _
  have h := main (dupIDs st) st [st] (by rfl)
  rw [h]
  rw [dedupTrace_fst (dupIDs st) st [st] 0]

/-- Every nonempty list of documents has a row of minimal id. -/
theorem exists_min_id : ∀ S : List Document, S ≠ [] →
    ∃ d ∈ S, ∀ e ∈ S, d.id ≤ e.id := by
  intro S
  induction S with
  | nil => intro h; exact absurd rfl h
  | cons d S ih =>
    intro _
    cases S with
    | nil => exact ⟨d, by simp, by simp⟩
    | cons d2 S2 =>
      obtain ⟨m, hm, hmin⟩ := ih (by simp)
      rcases le_total d.id m.id with h | h
      · refine ⟨d, by simp, ?_⟩
        intro e he
        rcases List.mem_cons.mp he with rfl | he
        · exact le_refl _
        · exact le_trans h (hmin e he)
      · refine ⟨m, by simp [hm], ?_⟩
        intro e he
        rcases List.mem_cons.mp he with rfl | he
        · exact h
        · exact hmin e he

/-- The survivors of the deletion fold, characterised without reference
to `dupIDs`: exactly the rows with no same-URL row of smaller id. -/
theorem survivors_eq (st : Store) (hnd : (st.documents.map fun d => d.id).Nodup) :
    st.documents.filter (fun d => !((dupIDs st).contains d.id)) =
      st.documents.filter (fun d =>
        !(st.documents.any fun d2 => d2.url == d.url && decide (d2.id < d.id))) := by
  apply List.filter_congr
  intro d hd
  congr 1
  apply Bool.eq_iff_iff.mpr
  rw [List.contains_eq_any_beq]
  constructor
  · intro h
    rcases List.any_eq_true.mp h with ⟨i, hi, hbeq⟩
    have : d.id ∈ dupIDs st := by
      have hid : d.id = i := by simpa using hbeq
      rw [← hid] at hi
      exact hi
    rcases (mem_dupIDs_iff st hnd d hd).mp this with ⟨d2, hd2, hurl, hlt⟩
    rw [List.any_eq_true]
    exact ⟨d2, hd2, by simp [hurl, hlt]⟩
  · intro h
    rcases List.any_eq_true.mp h with ⟨d2, hd2, hp⟩
    simp only [Bool.and_eq_true, beq_iff_eq, decide_eq_true_eq] at hp
    have hmem : d.id ∈ dupIDs st :=
      (mem_dupIDs_iff st hnd d hd).mpr ⟨d2, hd2, hp.1, hp.2⟩
    rw [List.any_eq_true]
    exact ⟨d.id, hmem, by simp⟩

/-- After the deletion fold, each URL present before retains exactly one
row: the one with the smallest id. -/
theorem one_survivor_per_url (st : Store)
    (hnd : (st.documents.map fun d => d.id).Nodup) (u : GoStr)
    (hex : ∃ d ∈ st.documents, d.url = u) :
    ((st.documents.filter fun d => !((dupIDs st).contains d.id)).filter
      fun d => d.url == u).length = 1 := by
  obtain ⟨d0, hd0, hu0⟩ := hex
  have hSne : st.documents.filter (fun d => d.url == u) ≠ [] := by
    intro hS
    have : d0 ∈ st.documents.filter (fun d => d.url == u) :=
      List.mem_filter.mpr ⟨hd0, by simp [hu0]⟩
    rw [hS] at this
    simp at this
  obtain ⟨dmin, hdminS, hmin⟩ := exists_min_id _ hSne
  have hdmindocs : dmin ∈ st.documents := List.mem_of_mem_filter hdminS
  have hdminurl : dmin.url = u := by simpa using List.of_mem_filter hdminS
  rw [List.filter_filter]
  have hpt : ∀ d ∈ st.documents,
      ((d.url == u) && !((dupIDs st).contains d.id)) = (d.id == dmin.id) := by
    intro d hd
    by_cases hdm : d.id = dmin.id
    · have hdeq : d = dmin := id_inj _ hnd d hd dmin hdmindocs hdm
      subst hdeq
      have hnotdup : d.id ∉ dupIDs st := by
        rw [mem_dupIDs_iff st hnd d hd]
        rintro ⟨d2, hd2, hurl2, hlt⟩
        have hd2S : d2 ∈ st.documents.filter (fun e => e.url == u) :=
          List.mem_filter.mpr ⟨hd2, by simp [hurl2, hdminurl]⟩
        exact absurd (hmin d2 hd2S) (by omega)
      simp [hnotdup, hdminurl]
    · by_cases hurl : d.url = u
      · have hdS : d ∈ st.documents.filter (fun e => e.url == u) :=
          List.mem_filter.mpr ⟨hd, by simp [hurl]⟩
        have hlt : dmin.id < d.id :=
          lt_of_le_of_ne (hmin d hdS) (fun he => hdm he.symm)
        have hdup : d.id ∈ dupIDs st :=
          (mem_dupIDs_iff st hnd d hd).mpr
            ⟨dmin, hdmindocs, by rw [hdminurl, hurl], hlt⟩
        simp [hdup, hdm]
      · have h1 : (d.url == u) = false := by simpa using hurl
        have h2 : (d.id == dmin.id) = false := by simpa using hdm
        rw [h1, h2, Bool.false_and]
  have hcong := List.filter_congr hpt
  simp only [hcong]
  exact filter_id_singleton st.documents dmin.id hnd
    (List.mem_map_of_mem _ hdmindocs)

/-! ### Lemmas about the crawl loop -/

/-- Out of fuel. -/
theorem crawlFuel_zero (site : Site) (embedO : GoStr → List ℝ) (st : CrawlState) :
    crawlFuel site embedO 0 st = none := rfl

/-- Empty frontier: the loop returns. -/
theorem crawlFuel_nil (site : Site) (embedO : GoStr → List ℝ) (n : ℕ)
    (vis : List GoStr) (acc : IngestAcc) (fet : List GoStr) :
    crawlFuel site embedO (n + 1) ⟨vis, [], acc, fet⟩ = some ⟨vis, [], acc, fet⟩ := rfl

/-- One dequeue step of the crawl loop, unfolded. -/
theorem crawlFuel_cons (site : Site) (embedO : GoStr → List ℝ) (n : ℕ)
    (vis rest : List GoStr) (acc : IngestAcc) (fet : List GoStr) (curr : GoStr) :
    crawlFuel site embedO (n + 1) ⟨vis, curr :: rest, acc, fet⟩ =
      if curr ∈ vis then crawlFuel site embedO n ⟨vis, rest, acc, fet⟩
      else if !containsSub (("kiali.io").toList) curr then
        crawlFuel site embedO n ⟨curr :: vis, rest, acc, fet⟩
      else
        match fetchSite site curr with
        | none => crawlFuel site embedO n ⟨curr :: vis, rest, acc, fet ++ [curr]⟩
        | some page =>
          crawlFuel site embedO n ⟨curr :: vis,
            rest ++ page.links.filter (fun link =>
              containsSub (("kiali.io").toList) link &&
                !(decide (link ∈ curr :: vis)) && shouldCrawl link),
            page.sections.foldl (processSection embedO) acc, fet ++ [curr]⟩ := rfl

/-- A successful crawl ends with an empty frontier. -/
theorem crawlFuel_queue_nil (site : Site) (embedO : GoStr → List ℝ) :
    ∀ (n : ℕ) (st r : CrawlState),
    crawlFuel site embedO n st = some r → r.queue = [] := by
  intro n
  induction n with
  | zero =>
    intro st r h
    rw [crawlFuel_zero] at h
    exact absurd h (by simp)
  | succ n ih =>
    intro st r h
    obtain ⟨vis, queue, acc, fet⟩ := st
    cases queue with
    | nil =>
      rw [crawlFuel_nil] at h
      simp only [Option.some.injEq] at h
      rw [← h]
    | cons curr rest =>
      rw [crawlFuel_cons] at h
      by_cases hv : curr ∈ vis
      · rw [if_pos hv] at h
        exact ih _ _ h
      · rw [if_neg hv] at h
        by_cases hc : containsSub (("kiali.io").toList) curr = false
        · rw [if_pos (show (!containsSub (("kiali.io").toList) curr) = true by rw [hc]; rfl)] at h
          exact ih _ _ h
        · have hcurr : containsSub (("kiali.io").toList) curr = true := by
            cases hcc : containsSub (("kiali.io").toList) curr
            · exact absurd hcc hc
            · rfl
          rw [if_neg (by rw [hcurr]; simp)] at h
          cases hf : fetchSite site curr with
          | none =>
            simp only [hf] at h
            exact ih _ _ h
          | some page =>
            simp only [hf] at h
            exact ih _ _ h

/-- Every URL ever fetched by the crawl loop contains "kiali.io" as a
substring of its full URL string, and every fetched URL other than a
URL of the initial frontier passed `shouldCrawl` when it was enqueued. -/
theorem crawlFuel_fetched_inv (site : Site) (embedO : GoStr → List ℝ) (seed : GoStr) :
    ∀ (n : ℕ) (st r : CrawlState),
    (∀ q ∈ st.queue, q = seed ∨ shouldCrawl q = true) →
    (∀ f ∈ st.fetched,
      containsSub (("kiali.io").toList) f = true ∧ (f = seed ∨ shouldCrawl f = true)) →
    crawlFuel site embedO n st = some r →
    ∀ f ∈ r.fetched,
      containsSub (("kiali.io").toList) f = true ∧ (f = seed ∨ shouldCrawl f = true) := by
  intro n
  induction n with
  | zero =>
    intro st r _ _ h
    rw [crawlFuel_zero] at h
    exact absurd h (by simp)
  | succ n ih =>
    intro st r hqinv hfinv h
    obtain ⟨vis, queue, acc, fet⟩ := st
    cases queue with
    | nil =>
      rw [crawlFuel_nil] at h
      simp only [Option.some.injEq] at h
      rw [← h]
      exact hfinv
    | cons curr rest =>
      rw [crawlFuel_cons] at h
      have hqrest : ∀ q ∈ rest, q = seed ∨ shouldCrawl q = true :=
        fun q hqr => hqinv q (by simp [hqr])
      by_cases hv : curr ∈ vis
      · rw [if_pos hv] at h
        exact ih ⟨vis, rest, acc, fet⟩ r hqrest hfinv h
      · rw [if_neg hv] at h
        by_cases hc : containsSub (("kiali.io").toList) curr = false
        · rw [if_pos (show (!containsSub (("kiali.io").toList) curr) = true by rw [hc]; rfl)] at h
          exact ih ⟨curr :: vis, rest, acc, fet⟩ r hqrest hfinv h
        · have hcurr : containsSub (("kiali.io").toList) curr = true := by
            cases hcc : containsSub (("kiali.io").toList) curr
            · exact absurd hcc hc
            · rfl
          rw [if_neg (by rw [hcurr]; simp)] at h
          have hcurrok : curr = seed ∨ shouldCrawl curr = true := hqinv curr (by simp)
          have hfinv' : ∀ f ∈ fet ++ [curr],
              containsSub (("kiali.io").toList) f = true ∧
                (f = seed ∨ shouldCrawl f = true) := by
            intro f hf
            rcases List.mem_append.mp hf with hf | hf
            · exact hfinv f hf
            · rw [List.mem_singleton] at hf
              exact hf ▸ ⟨hcurr, hcurrok⟩
          cases hfetch : fetchSite site curr with
          | none =>
            simp only [hfetch] at h
            exact ih ⟨curr :: vis, rest, acc, fet ++ [curr]⟩ r hqrest hfinv' h
          | some page =>
            simp only [hfetch] at h
            apply ih ⟨curr :: vis, _, _, fet ++ [curr]⟩ r ?_ hfinv' h
            intro q hqm
            simp only [List.mem_append] at hqm
            rcases hqm with hqm | hqm
            · exact hqrest q hqm
            · right
              have := List.of_mem_filter hqm
              simp only [Bool.and_eq_true] at this
              exact this.2

/-- Filtering by non-membership ignores an added visited element that
does not occur in the filtered list. -/
theorem filter_visited_congr (visited : List GoStr) (curr : GoStr) :
    ∀ l : List GoStr, curr ∉ l →
    (l.filter fun x => !(decide (x ∈ curr :: visited))) =
      (l.filter fun x => !(decide (x ∈ visited))) := by
  intro l hncurr
  apply List.filter_congr
  intro x hx
  have hxne : ¬ x = curr := fun he => hncurr (he ▸ hx)
  simp [List.mem_cons, hxne]

/-- Visiting a present, unvisited element decreases the unvisited count
by exactly one. -/
theorem count_remove_one : ∀ (l visited : List GoStr) (curr : GoStr),
    l.Nodup → curr ∈ l → curr ∉ visited →
    (l.filter fun x => !(decide (x ∈ curr :: visited))).length + 1 =
      (l.filter fun x => !(decide (x ∈ visited))).length := by
  intro l
  induction l with
  | nil => intro visited curr _ hm; simp at hm
  | cons c cs ih =>
    intro visited curr hnd hmem hnv
    rw [List.nodup_cons] at hnd
    rcases List.mem_cons.mp hmem with rfl | hmem
    · have h1 : (!(decide (curr ∈ curr :: visited))) = false := by simp
      have h2 : (!(decide (curr ∈ visited))) = true := by simp [hnv]
      simp only [List.filter_cons, h1, h2, Bool.false_eq_true, if_false, if_true]
      rw [filter_visited_congr visited curr cs hnd.1]
      simp
    · have hcne : ¬ c = curr := fun he => hnd.1 (he ▸ hmem)
      by_cases hcv : c ∈ visited
      · have h1 : (!(decide (c ∈ curr :: visited))) = false := by simp [hcv]
        have h2 : (!(decide (c ∈ visited))) = false := by simp [hcv]
        simp only [List.filter_cons, h1, h2, Bool.false_eq_true, if_false]
        exact ih visited curr hnd.2 hmem hnv
      · have h1 : (!(decide (c ∈ curr :: visited))) = true := by
          simp [List.mem_cons, hcv, hcne]
        have h2 : (!(decide (c ∈ visited))) = true := by simp [hcv]
        simp only [List.filter_cons, h1, h2, if_true, List.length_cons]
        have := ih visited curr hnd.2 hmem hnv
        omega

/-- A fetched page's links all appear in `allLinks`, and are no more
numerous. -/
theorem fetchSite_links : ∀ (site : Site) (curr : GoStr) (page : Page),
    fetchSite site curr = some page →
    (∀ l ∈ page.links, l ∈ allLinks site) ∧ page.links.length ≤ (allLinks site).length := by
  intro site
  induction site with
  | nil => intro curr page h; exact absurd h (by rw [fetchSite]; simp)
  | cons e rest ih =>
    intro curr page h
    obtain ⟨v, p⟩ := e
    rw [fetchSite] at h
    have hall : allLinks ((v, p) :: rest) = p.links ++ allLinks rest := by
      simp [allLinks]
    by_cases hcv : (curr == v) = true
    · rw [if_pos hcv] at h
      simp only [Option.some.injEq] at h
      subst h
      constructor
      · intro l hl
        rw [hall]
        exact List.mem_append_left _ hl
      · rw [hall]
        simp only [List.length_append]
        omega
    · rw [if_neg hcv] at h
      obtain ⟨hmem, hlen⟩ := ih curr page h
      constructor
      · intro l hl
        rw [hall]
        exact List.mem_append_right _ (hmem l hl)
      · rw [hall]
        simp only [List.length_append]
        omega

/-- With enough fuel — one more than the crawl measure — the crawl loop
reaches the empty frontier, and its fetch log stays duplicate-free. -/
theorem crawlFuel_terminates (site : Site) (embedO : GoStr → List ℝ) (U : List GoStr)
    (hlinks : ∀ curr page, fetchSite site curr = some page →
      (∀ l ∈ page.links, l ∈ U) ∧ page.links.length ≤ U.length) :
    ∀ (n : ℕ) (st : CrawlState),
    (∀ q ∈ st.queue, q ∈ U) →
    st.fetched.Nodup → (∀ f ∈ st.fetched, f ∈ st.visited) →
    crawlMeasure U st < n →
    ∃ r, crawlFuel site embedO n st = some r ∧ r.fetched.Nodup := by
  intro n
  induction n with
  | zero => intro st _ _ _ hm; omega
  | succ n ih =>
    intro st hq hnd hfv hm
    obtain ⟨vis, queue, acc, fet⟩ := st
    cases queue with
    | nil => exact ⟨⟨vis, [], acc, fet⟩, crawlFuel_nil site embedO n vis acc fet, hnd⟩
    | cons curr rest =>
      rw [crawlFuel_cons]
      have hcurrU : curr ∈ U := hq curr (by simp)
      have hrestq : ∀ q ∈ rest, q ∈ U := fun q h => hq q (by simp [h])
      simp only [crawlMeasure, List.length_cons] at hm
      by_cases hv : curr ∈ vis
      · rw [if_pos hv]
        apply ih ⟨vis, rest, acc, fet⟩ hrestq hnd hfv
        simp only [crawlMeasure]
        omega
      · have hcnt := count_remove_one U.dedup vis curr (List.nodup_dedup U)
          (List.mem_dedup.mpr hcurrU) hv
        have hexp : ((U.dedup.filter fun x => !(decide (x ∈ curr :: vis))).length + 1) *
            (U.length + 2) =
            (U.dedup.filter fun x => !(decide (x ∈ curr :: vis))).length *
              (U.length + 2) + (U.length + 2) := by ring
        rw [← hcnt, hexp] at hm
        rw [if_neg hv]
        have hfv' : ∀ f ∈ fet, f ∈ curr :: vis := fun f hf => by simp [hfv f hf]
        by_cases hc : containsSub (("kiali.io").toList) curr = false
        · rw [if_pos (show (!containsSub (("kiali.io").toList) curr) = true by rw [hc]; rfl)]
          apply ih ⟨curr :: vis, rest, acc, fet⟩ hrestq hnd hfv'
          simp only [crawlMeasure]
          omega
        · have hcurr : containsSub (("kiali.io").toList) curr = true := by
            cases hcc : containsSub (("kiali.io").toList) curr
            · exact absurd hcc hc
            · rfl
          rw [if_neg (by rw [hcurr]; simp)]
          have hndf : (fet ++ [curr]).Nodup := by
            rw [List.nodup_append]
            refine ⟨hnd, List.nodup_singleton _, ?_⟩
            intro a ha hac
            rw [List.mem_singleton] at hac
            exact hv (hac ▸ hfv a ha)
          have hfv'' : ∀ f ∈ fet ++ [curr], f ∈ curr :: vis := by
            intro f hf
            rcases List.mem_append.mp hf with hf | hf
            · simp [hfv f hf]
            · rw [List.mem_singleton] at hf
              simp [hf]
          cases hfetch : fetchSite site curr with
          | none =>
            simp only [hfetch]
            apply ih ⟨curr :: vis, rest, acc, fet ++ [curr]⟩ hrestq hndf hfv''
            simp only [crawlMeasure]
            omega
          | some page =>
            simp only [hfetch]
            obtain ⟨hsub, hlen⟩ := hlinks curr page hfetch
            set newLinks := page.links.filter (fun link =>
              containsSub (("kiali.io").toList) link &&
                !(decide (link ∈ curr :: vis)) && shouldCrawl link) with hnew
            have hq' : ∀ q ∈ rest ++ newLinks, q ∈ U := by
              intro q hqm
              rcases List.mem_append.mp hqm with hqm | hqm
              · exact hrestq q hqm
              · exact hsub q (List.mem_of_mem_filter hqm)
            have hnewlen : newLinks.length ≤ U.length :=
              le_trans (List.length_filter_le _ _) hlen
            apply ih ⟨curr :: vis, rest ++ newLinks, _, fet ++ [curr]⟩ hq' hndf hfv''
            simp only [crawlMeasure, List.length_append]
            omega

/-! ### Remaining helpers for the claims -/

/-- The shape of the window partition depends only on the word count. -/
theorem windows_map_length_congr (w : ℕ) : ∀ ws ws' : List GoStr,
    ws.length = ws'.length →
    (windows w ws).map List.length = (windows w ws').map List.length := by
  intro ws
  induction ws using windows.induct w with
  | case1 ws h =>
    intro ws' hlen
    have hcase : ws = [] ∨ w = 0 := by
      rcases (Bool.or_eq_true _ _).mp h with h1 | h1
      · exact Or.inl (List.isEmpty_iff.mp h1)
      · exact Or.inr (by simpa using h1)
    have h' : (ws'.isEmpty || w == 0) = true := by
      rcases hcase with rfl | rfl
      · have hws' : ws' = [] := List.length_eq_zero.mp (by rw [← hlen]; rfl)
        subst hws'
        simp
      · simp
    rw [windows, if_pos h, windows, if_pos h']
  | case2 ws h ih =>
    intro ws' hlen
    have h' : ¬(ws'.isEmpty || w == 0) = true := by
      simp only [Bool.or_eq_true, beq_iff_eq, List.isEmpty_iff, not_or] at h ⊢
      exact ⟨by intro he; exact h.1 (List.length_eq_zero.mp (by rw [hlen, he]; rfl)), h.2⟩
    rw [windows, if_neg h]
    conv_rhs => rw [windows]
    rw [if_neg h']
    simp only [List.map_cons]
    rw [ih (ws'.drop w) (by simp [hlen])]
    congr 1
    simp [hlen]

/-- A filter and its complement partition the length. -/
theorem length_filter_add_not (p : Document → Bool) :
    ∀ l : List Document,
    (l.filter p).length + (l.filter fun a => !(p a)).length = l.length := by
  intro l
  induction l with
  | nil => rfl
  | cons x xs ih =>
    simp only [List.filter_cons]
    cases hp : p x <;> simp [hp, ← ih] <;> omega

/-! ### The claims -/

/-- C5: for every text and every `maxWordsPerChunk` `w > 0`,
`splitIntoChunks` partitions the whitespace-delimited words of the text
into consecutive windows of exactly `w` words each except a shorter
final window, preserving order and joining each window with single
spaces; whitespace-only text produces zero chunks; and a 1700-word text
with `w = 800` yields exactly three chunks of 800, 800 and 100 words. -/
theorem C5_split_windows (text : GoStr) (w : ℕ) (hw : 0 < w) :
    splitIntoChunks text w = (windows w (fields text)).map joinSp ∧
    (splitIntoChunks text w).map fields = windows w (fields text) ∧
    (windows w (fields text)).flatten = fields text ∧
    (∀ b ∈ windows w (fields text), b ≠ [] ∧ b.length ≤ w) ∧
    (∀ i : ℕ, i + 1 < (windows w (fields text)).length →
      ((windows w (fields text)).getD i []).length = w) ∧
    ((∀ c ∈ text, isSpace c = true) → splitIntoChunks text w = []) ∧
    ((fields text).length = 1700 → w = 800 →
      (splitIntoChunks text w).map (fun ch => (fields ch).length) = [800, 800, 100]) := by
  refine ⟨chunkLoop_eq_windows w (fields text),
    chunk_words w (fields text) (fields_sound text), windows_flatten w hw _,
    windows_blocks w hw _, windows_full w _, ?_, ?_⟩
  · intro hsp
    rw [splitIntoChunks, fields_all_space text hsp, chunkLoop]
    simp
  · intro hlen hw800
    subst hw800
    have h2 := chunk_words 800 (fields text) (fields_sound text)
    rw [splitIntoChunks]
    calc (chunkLoop 800 (fields text)).map (fun ch => (fields ch).length)
        = ((chunkLoop 800 (fields text)).map fields).map List.length := by
          rw [List.map_map]; rfl
      _ = (windows 800 (fields text)).map List.length := by rw [h2]
      _ = (windows 800 (List.replicate 1700 ([] : GoStr))).map List.length := by
          exact windows_map_length_congr 800 _ _
            (by rw [hlen, List.length_replicate])
      _ = [800, 800, 100] := by
          rw [windows_1700]
          simp only [List.map_cons, List.map_nil, List.length_replicate]

/-- C6: chunking is deterministic (equal inputs give equal chunk lists)
and lossless: concatenating the words of all chunks in order
reconstructs the whitespace-delimited word sequence of the input. -/
theorem C6_chunk_roundtrip (text : GoStr) (w : ℕ) (hw : 0 < w) :
    (∀ text2 w2, text2 = text → w2 = w →
      splitIntoChunks text2 w2 = splitIntoChunks text w) ∧
    ((splitIntoChunks text w).map fields).flatten = fields text := by
  constructor
  · intro text2 w2 h1 h2
    rw [h1, h2]
  · rw [splitIntoChunks, chunk_words w (fields text) (fields_sound text),
      windows_flatten w hw]

/-- C7: `cosine` computes `dot(a,b) / (||a|| * ||b||)` on equal-length
vectors, returns exactly 0 when either norm is 0, gives 1 for the
cosine of a nonzero vector with itself, and 0 against an all-zero
vector (`float64` arithmetic idealised as exact reals). -/
theorem C7_cosine_spec (a b : List ℝ) (hlen : a.length = b.length) :
    cosine a b = (if vecNorm a = 0 ∨ vecNorm b = 0 then 0
      else dotProd a b / (vecNorm a * vecNorm b)) ∧
    ((a.map fun x => x * x).sum ≠ 0 → cosine a a = 1) ∧
    (∀ n : ℕ, cosine a (List.replicate n 0) = 0) := by
  have hzero : ∀ s : ℝ, 0 ≤ s → (Real.sqrt s = 0 ↔ s = 0) := by
    intro s hs
    rw [Real.sqrt_eq_zero']
    constructor
    · intro h; linarith
    · intro h; linarith
  refine ⟨?_, ?_, ?_⟩
  · rw [cosine]
    rw [zip_sq_left a b hlen, zip_sq_right a b hlen]
    simp only [vecNorm, dotProd]
    have hcond : ((a.map fun x => x * x).sum = 0 ∨ (b.map fun x => x * x).sum = 0) ↔
        (Real.sqrt ((a.map fun x => x * x).sum) = 0 ∨
          Real.sqrt ((b.map fun x => x * x).sum) = 0) := by
      rw [hzero _ (sum_sq_nonneg a), hzero _ (sum_sq_nonneg b)]
    exact if_congr hcond rfl rfl
  · intro hS
    rw [cosine]
    have h1 : ((a.zip a).map fun p => p.1 * p.1).sum = (a.map fun x => x * x).sum :=
      zip_self_sum _ _ (fun x => rfl) a
    have h2 : ((a.zip a).map fun p => p.2 * p.2).sum = (a.map fun x => x * x).sum :=
      zip_self_sum _ _ (fun x => rfl) a
    have h3 : ((a.zip a).map fun p => p.1 * p.2).sum = (a.map fun x => x * x).sum :=
      zip_self_sum _ _ (fun x => rfl) a
    rw [h1, h2, h3]
    rw [if_neg (by push_neg; exact ⟨hS, hS⟩)]
    rw [Real.mul_self_sqrt (sum_sq_nonneg a)]
    exact div_self hS
  · intro n
    rw [cosine]
    have hz : ((a.zip (List.replicate n (0 : ℝ))).map fun p => p.2 * p.2).sum = 0 := by
      apply List.sum_eq_zero
      intro x hx
      rcases List.mem_map.mp hx with ⟨p, hp, rfl⟩
      have hp2 : p.2 ∈ List.replicate n (0 : ℝ) := (List.of_mem_zip hp).2
      rw [List.eq_of_mem_replicate hp2]
      ring
    rw [if_pos (Or.inr hz)]

/-- Witness for C5 at a concrete 1700-word text and window 800. -/
theorem C5_split_windows_witness :
    (splitIntoChunks (joinSp (List.replicate 1700 (['k'] : GoStr))) 800).map
      (fun ch => (fields ch).length) = [800, 800, 100] := by
  have hf : fields (joinSp (List.replicate 1700 (['k'] : GoStr))) =
      List.replicate 1700 ['k'] := by
    apply fields_joinSp
    intro x hx
    rw [List.eq_of_mem_replicate hx]
    constructor
    · simp
    · intro c hc
      rw [List.mem_singleton] at hc
      subst hc
      decide
  exact (C5_split_windows (joinSp (List.replicate 1700 (['k'] : GoStr))) 800
    (by norm_num)).2.2.2.2.2.2 (by rw [hf, List.length_replicate]) rfl

/-- Witness for C6 at a concrete text and window size. -/
theorem C6_chunk_roundtrip_witness :
    ((splitIntoChunks (("a b").toList) 1).map fields).flatten =
      fields (("a b").toList) :=
  (C6_chunk_roundtrip (("a b").toList) 1 (by norm_num)).2

/-- Witness for C7 at the concrete vector `[3, 4]`. -/
theorem C7_cosine_spec_witness :
    cosine ([3, 4] : List ℝ) [3, 4] = 1 ∧
    cosine ([3, 4] : List ℝ) (List.replicate 2 0) = 0 := by
  have h := C7_cosine_spec ([3, 4] : List ℝ) [3, 4] rfl
  refine ⟨h.2.1 ?_, h.2.2 2⟩
  simp only [List.map_cons, List.map_nil, List.sum_cons, List.sum_nil]
  norm_num

/-- C8: `Answer` on a blank query returns a validation error before any
network or storage call (the recorded call log is empty); and when the
query embedding fails, the error is propagated and the store search is
never invoked (the log holds only the embed call). -/
theorem C8_answer_failfast (eo : GoStr → Except GoStr (List ℝ))
    (co : GoStr → Except GoStr GoStr) (rows : List JoinRow) (query e : GoStr) :
    ((trimSpace query).isEmpty = true →
      Answer eo co rows query = ⟨.error (("empty query").toList), []⟩) ∧
    ((trimSpace query).isEmpty = false → eo query = .error e →
      (Answer eo co rows query).result = .error e ∧
      (Answer eo co rows query).events = [.embedCall query]) := by
  constructor
  · intro h
    rw [Answer, if_pos h]
  · intro h heo
    rw [Answer, if_neg (by simp [h]), heo]
    exact ⟨rfl, rfl⟩

/-- Witness for C8: the empty query and a failing embedder. -/
theorem C8_answer_failfast_witness :
    Answer (fun _ => .error (("boom").toList)) (fun _ => .ok []) [] [] =
      ⟨.error (("empty query").toList), []⟩ ∧
    (Answer (fun _ => .error (("boom").toList)) (fun _ => .ok []) []
      (("q").toList)).result = .error (("boom").toList) := by
  constructor
  · exact (C8_answer_failfast (fun _ => .error (("boom").toList))
      (fun _ => .ok []) [] [] (("boom").toList)).1 (by decide)
  · exact ((C8_answer_failfast (fun _ => .error (("boom").toList))
      (fun _ => .ok []) [] (("q").toList) (("boom").toList)).2 (by decide) rfl).1

/-- C4: for a section whose content passes the length filter and whose
URL already has a document (`documentExists` true), the crawl ingestion
step makes no embedding call and no insert — the store and the ingested
and embed counters are unchanged — and only `skipped` is incremented;
the media-list ingestion step behaves the same on an already-present
item URL. -/
theorem C4_skip_existing (embedO : GoStr → List ℝ)
    (fetchRawO : GoStr → Option GoStr) (acc : IngestAcc)
    (sec : extractedSection) (u : GoStr) :
    (¬ (trimSpace sec.content).length < 10 →
      documentExists acc.store sec.url = true →
      processSection embedO acc sec = { acc with skipped := acc.skipped + 1 }) ∧
    (documentExists acc.store u = true →
      ytIngestStep fetchRawO embedO acc u = { acc with skipped := acc.skipped + 1 }) := by
  constructor
  · intro hlen hex
    rw [processSection, if_neg hlen, if_pos hex]
  · intro hex
    rw [ytIngestStep, if_pos hex]

/-- Witness for C4 at a one-document store whose URL is re-ingested. -/
theorem C4_skip_existing_witness :
    processSection (fun _ => [])
      ⟨⟨[⟨1, ("t").toList, ("u").toList, ("c").toList⟩], [], 2⟩, 5, 7, 9⟩
      ⟨("t2").toList, ("u").toList, ("abcdefghij").toList⟩ =
      ⟨⟨[⟨1, ("t").toList, ("u").toList, ("c").toList⟩], [], 2⟩, 5, 8, 9⟩ ∧
    ytIngestStep (fun _ => none) (fun _ => [])
      ⟨⟨[⟨1, ("t").toList, ("u").toList, ("c").toList⟩], [], 2⟩, 5, 7, 9⟩
      (("u").toList) =
      ⟨⟨[⟨1, ("t").toList, ("u").toList, ("c").toList⟩], [], 2⟩, 5, 8, 9⟩ := by
  constructor
  · exact (C4_skip_existing (fun _ => []) (fun _ => none)
      ⟨⟨[⟨1, ("t").toList, ("u").toList, ("c").toList⟩], [], 2⟩, 5, 7, 9⟩
      ⟨("t2").toList, ("u").toList, ("abcdefghij").toList⟩ []).1
      (by decide) (by decide)
  · exact (C4_skip_existing (fun _ => []) (fun _ => none)
      ⟨⟨[⟨1, ("t").toList, ("u").toList, ("c").toList⟩], [], 2⟩, 5, 7, 9⟩
      ⟨("t2").toList, ("u").toList, ("abcdefghij").toList⟩ (("u").toList)).2
      (by decide)

/-- Under duplicate-free ids, the `dupIDs` membership test on a row's id
is the duplicate predicate of the defining query. -/
theorem contains_dupIDs_eq (st : Store)
    (hnd : (st.documents.map fun d => d.id).Nodup)
    (d : Document) (hd : d ∈ st.documents) :
    ((dupIDs st).contains d.id) =
      (st.documents.any fun d2 => d2.url == d.url && decide (d2.id < d.id)) := by
  apply Bool.eq_iff_iff.mpr
  rw [List.contains_eq_any_beq]
  constructor
  · intro h
    rcases List.any_eq_true.mp h with ⟨i, hi, hbeq⟩
    have hmem : d.id ∈ dupIDs st := by
      have hid : d.id = i := by simpa using hbeq
      rw [← hid] at hi
      exact hi
    rcases (mem_dupIDs_iff st hnd d hd).mp hmem with ⟨d2, hd2, hurl, hlt⟩
    rw [List.any_eq_true]
    exact ⟨d2, hd2, by simp [hurl, hlt]⟩
  · intro h
    rcases List.any_eq_true.mp h with ⟨d2, hd2, hp⟩
    simp only [Bool.and_eq_true, beq_iff_eq, decide_eq_true_eq] at hp
    have hmem : d.id ∈ dupIDs st :=
      (mem_dupIDs_iff st hnd d hd).mpr ⟨d2, hd2, hp.1, hp.2⟩
    rw [List.any_eq_true]
    exact ⟨d.id, hmem, by simp⟩

/-- C3: when URLs repeat across document rows, `Deduplicate` removes
every row except the lowest-id one per URL, deleting each duplicate's
chunk rows before its document row so that referential consistency holds
at every intermediate state, leaves exactly one surviving row per
present URL, and returns the number of document rows removed. -/
theorem C3_deduplicate (st : Store)
    (hnd : (st.documents.map fun d => d.id).Nodup) :
    (Deduplicate st).1.documents = st.documents.filter (fun d =>
      !(st.documents.any fun d2 => d2.url == d.url && decide (d2.id < d.id))) ∧
    (Deduplicate st).1.embeddings = st.embeddings.filter (fun e =>
      !((dupIDs st).contains e.docId)) ∧
    (Deduplicate st).2 + (Deduplicate st).1.documents.length = st.documents.length ∧
    (∀ u : GoStr, (∃ d ∈ st.documents, d.url = u) →
      ((Deduplicate st).1.documents.filter fun d => d.url == u).length = 1) ∧
    (consistent st → ∀ s ∈ dedupTrace st, consistent s) ∧
    (dedupTrace st).getLast? = some (Deduplicate st).1 := by
  obtain ⟨htab1, htab2⟩ := dedup_foldl_tables (dupIDs st) st 0
  have hdocs : (Deduplicate st).1.documents =
      st.documents.filter fun d => !((dupIDs st).contains d.id) := by
    rw [Deduplicate]
    exact htab1
  obtain ⟨hpres, hndids⟩ := dupIDs_sub_nodup st hnd
  have hcount : (Deduplicate st).2 = (dupIDs st).length := by
    rw [Deduplicate]
    have := dedup_foldl_count (dupIDs st) st 0 hndids hpres hnd
    simpa using this
  refine ⟨?_, ?_, ?_, ?_, dedupTrace_consistent st, dedupTrace_getLast st⟩
  · rw [hdocs]
    exact survivors_eq st hnd
  · rw [Deduplicate]
    exact htab2
  · rw [hcount, hdocs]
    have hpart := length_filter_add_not
      (fun d => (dupIDs st).contains d.id) st.documents
    have hflen : (st.documents.filter fun d => (dupIDs st).contains d.id).length =
        (dupIDs st).length := by
      rw [List.filter_congr (fun d hd => contains_dupIDs_eq st hnd d hd)]
      rw [dupIDs, List.length_map]
    omega
  · intro u hex
    rw [hdocs]
    exact one_survivor_per_url st hnd u hex

/-- Concrete two-duplicate store for the C3 witness. -/
def dedupExampleStore : Store :=
  ⟨[⟨1, ("t1").toList, ("u").toList, ("c1").toList⟩,
    ⟨2, ("t2").toList, ("u").toList, ("c2").toList⟩],
   [⟨1, 0, [], ("s1").toList⟩, ⟨2, 0, [], ("s2").toList⟩], 3⟩

/-- Witness for C3 at a store with two rows of the same URL. -/
theorem C3_deduplicate_witness :
    ((Deduplicate dedupExampleStore).1.documents.filter
      fun d => d.url == ("u").toList).length = 1 ∧
    ∀ s ∈ dedupTrace dedupExampleStore, consistent s := by
  have h := C3_deduplicate dedupExampleStore (by decide)
  refine ⟨h.2.2.2.1 (("u").toList)
    ⟨⟨1, ("t1").toList, ("u").toList, ("c1").toList⟩,
      List.mem_cons_self _ _, rfl⟩, h.2.2.2.2.1 ?_⟩
  intro e he
  rcases List.mem_cons.mp he with rfl | he
  · exact ⟨⟨1, ("t1").toList, ("u").toList, ("c1").toList⟩, List.mem_cons_self _ _, rfl⟩
  · rcases List.mem_cons.mp he with rfl | he
    · refine ⟨⟨2, ("t2").toList, ("u").toList, ("c2").toList⟩, ?_, rfl⟩
      exact List.mem_cons_of_mem _ (List.mem_cons_self _ _)
    · exact absurd he (List.not_mem_nil _)

/-- First stored chunk of the C1 counterexample: orthogonal to the query. -/
def exRow1 : JoinRow := ⟨1, ("t1").toList, ("u1").toList, ("s1").toList, [0, 1]⟩

/-- Second stored chunk of the C1 counterexample: parallel to the query. -/
def exRow2 : JoinRow := ⟨2, ("t2").toList, ("u2").toList, ("s2").toList, [1, 0]⟩

/-- The orthogonal chunk has similarity 0 to the query `[1, 0]`. -/
theorem cosine_exRow1 : cosine ([0, 1] : List ℝ) [1, 0] = 0 := by
  rw [cosine]
  rw [show (([0, 1] : List ℝ).zip ([1, 0] : List ℝ)) = [(0, 1), (1, 0)] from rfl]
  norm_num

/-- The parallel chunk has similarity 1 to the query `[1, 0]`. -/
theorem cosine_exRow2 : cosine ([1, 0] : List ℝ) [1, 0] = 1 := by
  rw [cosine]
  rw [show (([1, 0] : List ℝ).zip ([1, 0] : List ℝ)) = [(1, 1), (0, 0)] from rfl]
  norm_num [Real.sqrt_one]

/-- C1 counterexample: with two stored chunks and `k = 2`, the sqlite
`search` never sorts (`topK` only runs when more than `k` rows are
scanned), so the scan order comes back verbatim: the similarity-0 chunk
precedes the similarity-1 chunk, refuting the claimed non-increasing
cosine-similarity order. -/
theorem C1_counterexample :
    (search [exRow1, exRow2] [1, 0] 2).map (fun c => c.vector) = [[0, 1], [1, 0]] ∧
    cosine ([0, 1] : List ℝ) [1, 0] < cosine ([1, 0] : List ℝ) [1, 0] ∧
    ¬ ((search [exRow1, exRow2] [1, 0] 2).Pairwise
        (fun a b => cosine b.vector [1, 0] ≤ cosine a.vector [1, 0])) := by
  have hsearch : search [exRow1, exRow2] [1, 0] 2 =
      [mkChunk [1, 0] exRow1, mkChunk [1, 0] exRow2] := by
    rw [search]
    simp only [List.map_cons, List.map_nil, List.length_cons, List.length_nil]
    rw [if_neg (by norm_num)]
  refine ⟨?_, ?_, ?_⟩
  · rw [hsearch]
    simp [mkChunk, exRow1, exRow2]
  · rw [cosine_exRow1, cosine_exRow2]
    norm_num
  · intro h
    rw [hsearch, List.pairwise_cons] at h
    have hle := h.1 (mkChunk [1, 0] exRow2) (List.mem_singleton.mpr rfl)
    have hv1 : (mkChunk [1, 0] exRow1).vector = [0, 1] := rfl
    have hv2 : (mkChunk [1, 0] exRow2).vector = [1, 0] := rfl
    rw [hv1, hv2, cosine_exRow1, cosine_exRow2] at hle
    linarith

/-- C1 amended: `search(v, k)` on the linear-scan backend returns at most
`k` results.  When more than `k` chunks are stored, the result is the
`k`-prefix of the stable descending order by the score re-parsed from
the snippet (the similarity rounded to three decimals) — hence
non-increasing in that rounded score, with ties in the rounded score
broken by encounter order; chunks whose exact similarities differ but
round to the same three decimals keep encounter order rather than exact
similarity order.  When at most `k` chunks are stored, they are returned
in encounter order without any sorting. -/
theorem C1_amended (rows : List JoinRow) (qv : List ℝ) (k : ℕ) :
    (search rows qv k).length ≤ k ∧
    (rows.length > k → search rows qv k = (sortDesc (rows.map (mkChunk qv))).take k) ∧
    (rows.length > k →
      (search rows qv k).Pairwise (fun a b => chunkScore b ≤ chunkScore a)) ∧
    (rows.length ≤ k → search rows qv k = rows.map (mkChunk qv)) := by
  rw [search]
  simp only [List.length_map]
  by_cases hgt : rows.length > k
  · rw [if_pos hgt]
    refine ⟨?_, fun _ => topK_eq_take_sortDesc _ _, fun _ => topK_sorted _ _, ?_⟩
    · rw [topK_length, List.length_map]
      omega
    · intro hle
      omega
  · rw [if_neg hgt]
    refine ⟨?_, fun h => absurd h hgt, fun h => absurd h hgt, fun _ => rfl⟩
    rw [List.length_map]
    omega

/-- Witness for C1 (amended) at a two-row store with `k = 1`. -/
theorem C1_amended_witness :
    (search [exRow1, exRow2] [1, 0] 1).length ≤ 1 ∧
    search [exRow1, exRow2] [1, 0] 1 =
      (sortDesc ([exRow1, exRow2].map (mkChunk [1, 0]))).take 1 :=
  ⟨(C1_amended [exRow1, exRow2] [1, 0] 1).1,
   (C1_amended [exRow1, exRow2] [1, 0] 1).2.1 (by norm_num)⟩

/-- C10: on the linear-scan backend every chunk returned by `search`
carries the stored snippet with the formatted similarity appended
(`" (sim=%.3f)"`); `Answer`'s citations expose this modified snippet as
the span; and the score `topK` ranks by — `extractScore` of that
snippet — is exactly the 3-decimal-rounded similarity re-parsed from
the string, not the exact computed similarity. -/
theorem C10_snippet_score :
    (∀ (rows : List JoinRow) (qv : List ℝ) (k : ℕ) (c : docChunk),
      c ∈ search rows qv k →
      ∃ r ∈ rows, c.snippet = r.snippet ++ simSuffix (cosine r.vector qv) ∧
        c.title = r.title ∧ c.url = r.url ∧ c.vector = r.vector) ∧
    (∀ (snip : GoStr) (x : ℝ),
      extractScore (snip ++ simSuffix x) = ((round3 x : ℤ) : ℚ) / 1000) ∧
    (∀ (eo : GoStr → Except GoStr (List ℝ)) (co : GoStr → Except GoStr GoStr)
      (rows : List JoinRow) (query : GoStr) (emb : List ℝ) (ans : GoStr),
      (trimSpace query).isEmpty = false → eo query = .ok emb →
      co (buildPrompt query (search rows emb 8)) = .ok ans →
      (Answer eo co rows query).result =
        .ok (ans, (search rows emb 8).map fun d => ⟨d.title, d.url, d.snippet⟩)) := by
  refine ⟨?_, extractScore_append, ?_⟩
  · intro rows qv k c hc
    rw [search] at hc
    have hres : c ∈ rows.map (mkChunk qv) := by
      by_cases hgt : (rows.map (mkChunk qv)).length > k
      · rw [if_pos hgt] at hc
        rw [topK_eq_take_sortDesc] at hc
        exact (mem_sortDesc _).mp (List.mem_of_mem_take hc)
      · rw [if_neg hgt] at hc
        exact hc
    rcases List.mem_map.mp hres with ⟨r, hr, rfl⟩
    exact ⟨r, hr, rfl, rfl, rfl, rfl⟩
  · intro eo co rows query emb ans hq heo hco
    rw [Answer, if_neg (by simp [hq]), heo]
    simp only [hco]

/-- Witness for C10 at a one-row store. -/
theorem C10_snippet_score_witness :
    (∃ r ∈ [exRow2], (mkChunk [1, 0] exRow2).snippet =
        r.snippet ++ simSuffix (cosine r.vector [1, 0]) ∧
        (mkChunk [1, 0] exRow2).title = r.title ∧
        (mkChunk [1, 0] exRow2).url = r.url ∧
        (mkChunk [1, 0] exRow2).vector = r.vector) ∧
    extractScore ((("s2").toList) ++ simSuffix 1) = ((round3 1 : ℤ) : ℚ) / 1000 ∧
    (Answer (fun _ => .ok [1]) (fun _ => .ok (("a").toList)) [exRow2]
      (("q").toList)).result =
      .ok ((("a").toList),
        (search [exRow2] [1] 8).map fun d => ⟨d.title, d.url, d.snippet⟩) := by
  obtain ⟨h1, h2, h3⟩ := C10_snippet_score
  refine ⟨h1 [exRow2] [1, 0] 8 (mkChunk [1, 0] exRow2) ?_,
    h2 (("s2").toList) 1,
    h3 (fun _ => .ok [1]) (fun _ => .ok (("a").toList)) [exRow2] (("q").toList)
      [1] (("a").toList) (by decide) rfl rfl⟩
  rw [show search [exRow2] [1, 0] 8 = [mkChunk [1, 0] exRow2] from by
    rw [search]
    simp only [List.map_cons, List.map_nil, List.length_cons, List.length_nil]
    rw [if_neg (by norm_num)]]
  exact List.mem_singleton.mpr rfl

/-- The C2 counterexample base URL: its host is outside the target
domain, but its path contains "kiali.io". -/
def exBase : GoStr := ("https://evil.com/docs/kiali.io").toList

/-- The page served at the counterexample URL: no sections, no links. -/
def exPage : Page := ⟨[], []⟩

/-- The one-page counterexample site. -/
def exSite : Site := [(exBase, exPage)]

/-- Embedding oracle for the counterexample run (never used). -/
def exEmbed : GoStr → List ℝ := fun _ => []

/-- C2 counterexample: crawling from
`https://evil.com/docs/kiali.io`, whose host is `evil.com` (outside the
target domain), the crawler fetches that URL anyway — the dequeue check
is a substring test on the whole URL string, not on the host. -/
theorem C2_counterexample :
    (IngestKialiDocs exSite exEmbed exBase 3).map CrawlState.fetched =
      some [exBase] ∧
    (parseURL exBase).host = ("evil.com").toList ∧
    containsSub (("kiali.io").toList) ((parseURL exBase).host) = false := by
  refine ⟨by decide, by decide, by decide⟩

/-- C2 amended: every URL the crawler fetches contains "kiali.io" as a
substring of the whole URL string (the actual check at dequeue time),
and every fetched URL other than the seed additionally passed
`shouldCrawl` (host containing "kiali.io", path under `/docs/`) when it
was enqueued; only the seed URL can be fetched with an out-of-domain
host. -/
theorem C2_amended (site : Site) (embedO : GoStr → List ℝ) (base : GoStr)
    (fuel : ℕ) (r : CrawlState)
    (h : IngestKialiDocs site embedO base fuel = some r) :
    ∀ u ∈ r.fetched, containsSub (("kiali.io").toList) u = true ∧
      (u = seedOf base ∨ shouldCrawl u = true) := by
  apply crawlFuel_fetched_inv site embedO (seedOf base) fuel _ r ?_ ?_ h
  · intro q hq
    rw [List.mem_singleton] at hq
    exact Or.inl hq
  · intro f hf
    simp at hf

/-- Witness for C2 (amended) on the concrete counterexample run. -/
theorem C2_amended_witness :
    containsSub (("kiali.io").toList) exBase = true ∧
    (exBase = seedOf exBase ∨ shouldCrawl exBase = true) := by
  have hmap : (IngestKialiDocs exSite exEmbed exBase 3).map CrawlState.fetched =
      some [exBase] := by decide
  rcases hr : IngestKialiDocs exSite exEmbed exBase 3 with _ | r
  · rw [hr] at hmap
    exact absurd hmap (by decide)
  · rw [hr] at hmap
    simp only [Option.map_some', Option.some.injEq] at hmap
    apply C2_amended exSite exEmbed exBase 3 r hr
    rw [hmap]
    exact List.mem_singleton.mpr rfl

/-- C9: for every finite link graph, the site crawl terminates — some
finite fuel reaches the empty frontier — and no URL is ever fetched
(hence no page ingested) more than once: the final fetch log is
duplicate-free. -/
theorem C9_crawl_terminates (site : Site) (embedO : GoStr → List ℝ) (base : GoStr) :
    ∃ (n : ℕ) (st : CrawlState),
      IngestKialiDocs site embedO base n = some st ∧
      st.queue = [] ∧ st.fetched.Nodup := by
  have hlinks : ∀ curr page, fetchSite site curr = some page →
      (∀ l ∈ page.links, l ∈ seedOf base :: allLinks site) ∧
      page.links.length ≤ (seedOf base :: allLinks site).length := by
    intro curr page h
    obtain ⟨hm, hl⟩ := fetchSite_links site curr page h
    constructor
    · intro l hlm
      exact List.mem_cons_of_mem _ (hm l hlm)
    · simp only [List.length_cons]
      omega
  obtain ⟨r, hr, hnd⟩ := crawlFuel_terminates site embedO
    (seedOf base :: allLinks site) hlinks
    (crawlMeasure (seedOf base :: allLinks site)
      ⟨[], [seedOf base], ⟨emptyStore, 0, 0, 0⟩, []⟩ + 1)
    ⟨[], [seedOf base], ⟨emptyStore, 0, 0, 0⟩, []⟩
    (by intro q hq; rw [List.mem_singleton] at hq; simp [hq])
    (by simp) (by intro f hf; simp at hf) (by omega)
  exact ⟨_, r, hr, crawlFuel_queue_nil site embedO _ _ _ hr, hnd⟩
